import Mathlib

/-!
Bit-level Brainfuck interpreter (`src/main.cpp`): embedding and properties.

The embedding follows `src/main.cpp` function by function.

* A `std::string` holding a *program* is a `List Char`; a `std::string` holding
  *data bytes* (the argument of `to_bit_stream`, the result of
  `from_bit_stream`) is a `List Nat` of unsigned byte values.
* `std::vector<bool>` and `std::deque<bool>` are `List Bool`.
* `std::bitset<8>` is a `List Bool` of length 8, index 0 being the
  least-significant bit.
* `size_t` counters are `Nat`.  Every counter of the interpreter is bounded by
  the program length, the tape length or `MAX_EXECUTION_STEPS + 1`, so 64-bit
  wrap-around is never reached.
* `std::unordered_map<size_t, size_t>` is an association list read with
  `List.lookup`; the newest binding of a key shadows older ones.
* Lists are unbounded: running out of memory while the tape grows is not
  modelled.
* Writing to `std::cout` and `std::cerr` is not part of the state.
-/

namespace BitInterp

/-! ## Constants (`main.cpp` lines 13-14) -/

def INITIAL_TAPE_SIZE : Nat := 1024

def MAX_EXECUTION_STEPS : Nat := 10000000

/-! ## BitStream codec (`main.cpp` lines 223-246) -/

/-- The constructor `std::bitset<8> b(v)`: position `i` holds bit `i` of `v`. -/
def bitset8 (v : Nat) : List Bool :=
  (List.range 8).map (fun i => v.testBit i)

/-- The method `std::bitset<8>::to_ulong`: position `i` weighs `2^i`. -/
def to_ulong : List Bool → Nat
  | [] => 0
  | b :: bs => b.toNat + 2 * to_ulong bs

/-- The function `to_bit_stream` (lines 223-233).  For every character the byte
value `static_cast<unsigned char>(c)` is loaded into a `bitset<8>` and the
positions `0..7` are pushed in that order. -/
def to_bit_stream (input : List Nat) : List Bool :=
  input.foldl
    (fun bits c =>
      let b := bitset8 (c % 256)
      (List.range 8).foldl (fun bits i => bits ++ [b.getD i false]) bits)
    []

/-- The inner loop of `from_bit_stream` (line 241):
`for (j = 0; j < 8 && i + j < bits.size(); ++j) b[j] = bits[i + j];`.
The first argument is `8 - j`, the number of iterations that `j < 8` still
allows. -/
def from_bit_stream.fill (bits : List Bool) (i : Nat) : Nat → Nat → List Bool → List Bool
  | 0, _, b => b
  | k + 1, j, b =>
    if i + j < bits.length then
      from_bit_stream.fill bits i k (j + 1) (b.set j (bits.getD (i + j) false))
    else b

/-- The outer loop of `from_bit_stream` (line 238):
`for (i = 0; i < bits.size(); i += 8)`, appending one character per round. -/
def from_bit_stream.loop (bits : List Bool) (i : Nat) (output : List Nat) : List Nat :=
  if i < bits.length then
    from_bit_stream.loop bits (i + 8)
      (output ++ [to_ulong (from_bit_stream.fill bits i 8 0 (List.replicate 8 false))])
  else output
termination_by bits.length - i
decreasing_by omega

/-- The function `from_bit_stream` (lines 235-246). -/
def from_bit_stream (bits : List Bool) : List Nat :=
  from_bit_stream.loop bits 0 []

/-! ## Machine state (`main.cpp` lines 18-34) -/

/-- The struct `State`. -/
structure State where
  tape : List Bool
  ptr : Nat
  idx_ptr : Nat
  input_ptr : Nat
  mem_used : Nat
  left_pad : Nat
  step_count : Nat
  input_bits : List Bool
  output_bits : List Bool
  code : List Char
  loop_map : List (Nat × Nat)
deriving DecidableEq

/-- The constructor `State(code_, input_bits_)` with the default member
initialisers of lines 21-26. -/
def State.init (code : List Char) (input_bits : List Bool) : State where
  tape := List.replicate INITIAL_TAPE_SIZE false
  ptr := INITIAL_TAPE_SIZE / 2
  idx_ptr := 0
  input_ptr := 0
  mem_used := INITIAL_TAPE_SIZE
  left_pad := INITIAL_TAPE_SIZE / 2
  step_count := 0
  input_bits := input_bits
  output_bits := []
  code := code
  loop_map := []

/-- The assignment `loop_map[k] = v`. -/
def map_assign (m : List (Nat × Nat)) (k v : Nat) : List (Nat × Nat) :=
  (k, v) :: m

/-- The read `loop_map[k]`: `operator[]` of `std::unordered_map` returns the
stored value, and for an absent key it inserts the value-initialised `0` and
returns that. -/
def map_index (m : List (Nat × Nat)) (k : Nat) : Nat × List (Nat × Nat) :=
  match m.lookup k with
  | some v => (v, m)
  | none => (0, (k, 0) :: m)

/-! ## Commands (`main.cpp` lines 42-137)

The `DEBUG_ENABLED` branches only write to `std::cout`; the one expression
they evaluate, `s.loop_map[s.idx_ptr]`, is evaluated again by the assignment
that follows, so tracing does not change the state. -/

/-- The command `PlusCmd` (line 46). -/
def PlusCmd (s : State) : State :=
  { s with tape := s.tape.set s.ptr (!(s.tape.getD s.ptr false)) }

/-- The command `InputCmd` (line 57). -/
def InputCmd (s : State) : State :=
  if s.input_ptr < s.input_bits.length then
    { s with
      tape := s.tape.set s.ptr (s.input_bits.getD s.input_ptr false)
      input_ptr := s.input_ptr + 1 }
  else
    { s with tape := s.tape.set s.ptr false }

/-- The command `OutputCmd` (line 67). -/
def OutputCmd (s : State) : State :=
  { s with output_bits := s.output_bits ++ [s.tape.getD s.ptr false] }

/-- The command `MoveRightCmd` (lines 77-84). -/
def MoveRightCmd (s : State) : State :=
  let s1 := { s with ptr := s.ptr + 1 }
  if s1.ptr ≥ s1.tape.length then
    let t := s1.tape ++ List.replicate INITIAL_TAPE_SIZE false
    { s1 with tape := t, mem_used := t.length }
  else s1

/-- The command `MoveLeftCmd` (lines 97-106). -/
def MoveLeftCmd (s : State) : State :=
  let s1 :=
    if s.ptr = 0 then
      let t := List.replicate INITIAL_TAPE_SIZE false ++ s.tape
      { s with
        tape := t
        ptr := s.ptr + INITIAL_TAPE_SIZE
        left_pad := s.left_pad + INITIAL_TAPE_SIZE
        mem_used := t.length }
    else s
  { s1 with ptr := s1.ptr - 1 }

/-- The command `JumpForwardCmd` (lines 116-121). -/
def JumpForwardCmd (s : State) : State :=
  if !(s.tape.getD s.ptr false) then
    let r := map_index s.loop_map s.idx_ptr
    { s with idx_ptr := r.1, loop_map := r.2 }
  else s

/-- The command `JumpBackwardCmd` (lines 129-135). -/
def JumpBackwardCmd (s : State) : State :=
  if s.tape.getD s.ptr false then
    let r := map_index s.loop_map s.idx_ptr
    { s with idx_ptr := r.1, loop_map := r.2 }
  else s

/-- The table filled by `setup_commands` (lines 176-185), read with
`command_map.find(c)`. -/
def command_map (c : Char) : Option (State → State) :=
  if c = '+' then some PlusCmd
  else if c = ',' then some InputCmd
  else if c = ';' then some OutputCmd
  else if c = '>' then some MoveRightCmd
  else if c = '<' then some MoveLeftCmd
  else if c = '[' then some JumpForwardCmd
  else if c = ']' then some JumpBackwardCmd
  else none

/-! ## Loop resolver (`main.cpp` lines 190-220) -/

/-- The two diagnostics of `build_jump_map`, each followed by `std::exit(1)`. -/
inductive BracketError where
  | unmatched_close (pos : Nat)
  | unmatched_open (pos : Nat)
deriving DecidableEq

/-- The `for` loop of `build_jump_map` (lines 194-212) from index `i` on, the
first argument being the characters `code[i..]`.  The stack is a list whose
head is `stack.top()`.  A failure carries the map as it is at the exit. -/
def build_jump_map.scan :
    List Char → Nat → List Nat → List (Nat × Nat) →
      Except (BracketError × List (Nat × Nat)) (List Nat × List (Nat × Nat))
  | [], _, stack, m => .ok (stack, m)
  | c :: cs, i, stack, m =>
    if c = '[' then
      build_jump_map.scan cs (i + 1) (i :: stack) m
    else if c = ']' then
      match stack with
      | [] => .error (.unmatched_close i, m)
      | start :: rest =>
        build_jump_map.scan cs (i + 1) rest (map_assign (map_assign m start i) i start)
    else
      build_jump_map.scan cs (i + 1) stack m

/-- The function `build_jump_map` (lines 190-220).  `.error (e, s)` stands for
the diagnostic `e` followed by `std::exit(1)`, the state being `s` then. -/
def build_jump_map (s : State) : Except (BracketError × State) State :=
  match build_jump_map.scan s.code 0 [] s.loop_map with
  | .error (e, m) => .error (e, { s with loop_map := m })
  | .ok ([], m) => .ok { s with loop_map := m }
  | .ok (top :: _, m) => .error (.unmatched_open top, { s with loop_map := m })

/-! ## Execution engine (`main.cpp` lines 142-171) -/

/-- How a call of `interpret` ends. -/
inductive Outcome where
  /-- The statement `return state.output_bits;` (line 170). -/
  | returned (output_bits : List Bool)
  /-- The call `std::exit(1)` inside `build_jump_map`. -/
  | exited (e : BracketError)
  /-- The statement `throw std::runtime_error(...)` (line 152). -/
  | thrown
deriving DecidableEq

/-- Lines 156-163: look the character up in `command_map` and, when it is
there, run its command. -/
def dispatch (c : Char) (s : State) : State :=
  match command_map c with
  | some cmd => cmd s
  | none => s

/-- One round of the `while` loop of `interpret` without the check of the step
limit: count the step, dispatch, `idx_ptr++`.  A state whose `idx_ptr` is past
the end of the program is left as it is. -/
def interpret.step (s : State) : State :=
  if h : s.idx_ptr < s.code.length then
    let s1 := { s with step_count := s.step_count + 1 }
    let s2 := dispatch s.code[s.idx_ptr] s1
    { s2 with idx_ptr := s2.idx_ptr + 1 }
  else s

/-- The `while` loop of `interpret` (lines 148-166), paired with the state in
which it ends.  It terminates because every round increments `step_count` and
a round that finds it above `MAX_EXECUTION_STEPS` throws. -/
def interpret.loop (s : State) : Outcome × State :=
  if h : s.idx_ptr < s.code.length then
    let s1 := { s with step_count := s.step_count + 1 }
    if s1.step_count > MAX_EXECUTION_STEPS then
      (.thrown, s1)
    else
      let s2 := dispatch s.code[s.idx_ptr] s1
      interpret.loop { s2 with idx_ptr := s2.idx_ptr + 1 }
  else
    (.returned s.output_bits, s)
termination_by MAX_EXECUTION_STEPS + 1 - s.step_count
decreasing_by
  rename_i hlim
  have hsc : (dispatch s.code[s.idx_ptr] { s with step_count := s.step_count + 1 }).step_count
      = s.step_count + 1 := by
    unfold dispatch command_map
    split_ifs <;>
      simp only [PlusCmd, InputCmd, OutputCmd, MoveRightCmd, MoveLeftCmd, JumpForwardCmd,
        JumpBackwardCmd] <;>
      split_ifs <;> rfl
  simp only [hsc]
  simp only [gt_iff_lt, not_lt] at hlim
  omega

/-- The function `interpret` (lines 142-171) paired with the state in which it
ends: the state at `std::exit(1)`, at the `throw`, or at the `return`. -/
def interpret.run (code : List Char) (input_bits : List Bool) : Outcome × State :=
  match build_jump_map (State.init code input_bits) with
  | .error (e, s) => (.exited e, s)
  | .ok s => interpret.loop s

/-- The function `interpret` (lines 142-171). -/
def interpret (code : List Char) (input_bits : List Bool) : Outcome :=
  (interpret.run code input_bits).1

/-! ## Bracket balance, as the spec words it -/

/-- Depth-counter reading of "balanced brackets": scanning left to right with
`d` opens pending, no close arrives at depth 0 and the depth ends at 0. -/
def balanced.go : List Char → Nat → Bool
  | [], d => d == 0
  | c :: cs, d =>
    if c = '[' then balanced.go cs (d + 1)
    else if c = ']' then
      match d with
      | 0 => false
      | d + 1 => balanced.go cs d
    else balanced.go cs d

/-- A program has balanced brackets. -/
def balanced (code : List Char) : Bool :=
  balanced.go code 0

/-- The eight bits a byte group of `from_bit_stream` starting at index `i`
reads, positions past the end of `bits` reading as `false`. -/
def window (bits : List Bool) (i : Nat) : List Bool :=
  (List.range 8).map (fun j => bits.getD (i + j) false)

/-- Invariant of the scan of `build_jump_map` when it stands before index `i`
with the stack `stack` and the map `m`. -/
structure ScanInv (code : List Char) (i : Nat) (stack : List Nat) (m : List (Nat × Nat)) :
    Prop where
  /-- The stack holds positions in strictly decreasing order from the top. -/
  stack_sorted : stack.Pairwise (fun a b => b < a)
  /-- Every stacked position is an already scanned `[`. -/
  stack_open : ∀ p ∈ stack, p < i ∧ code[p]? = some '['
  /-- The keys are the scanned bracket positions that are not pending. -/
  keys : ∀ k, (m.lookup k).isSome ↔
    (k < i ∧ (code[k]? = some '[' ∨ code[k]? = some ']') ∧ k ∉ stack)
  /-- Every entry has its mirror entry, and joins a `[` to a later `]`. -/
  pair : ∀ k v, m.lookup k = some v →
    m.lookup v = some k ∧
      ((code[k]? = some '[' ∧ code[v]? = some ']' ∧ k < v) ∨
        (code[k]? = some ']' ∧ code[v]? = some '[' ∧ v < k))

/-- Invariant of the states the program `+[++]` runs through: the cursor bit
is determined by the instruction pointer. -/
def toggle_inv (s : State) : Prop :=
  s.code = "+[++]".toList ∧ s.loop_map.lookup 4 = some 1 ∧ s.ptr < s.tape.length ∧
    ((s.idx_ptr = 0 ∧ s.tape.getD s.ptr false = false) ∨
      (s.idx_ptr = 1 ∧ s.tape.getD s.ptr false = true) ∨
      (s.idx_ptr = 2 ∧ s.tape.getD s.ptr false = true) ∨
      (s.idx_ptr = 3 ∧ s.tape.getD s.ptr false = false) ∨
      (s.idx_ptr = 4 ∧ s.tape.getD s.ptr false = true))

/-! ## Program entry (`main.cpp` lines 248-283) -/

/-- The function `main` (lines 248-283), as the exit status of the process.
`argv` holds the arguments, `argc` being their number, and `file` is what
`std::ifstream file(argv[1])` gives: `none` when the file cannot be opened,
otherwise the characters read from it.  The third argument only sets
`DEBUG_ENABLED`.  A `std::exit(1)` inside `interpret` ends the process with
status 1; the exception thrown at the step limit is caught at line 278, after
which control reaches `return 0;` at line 282. -/
def main (argv : List (List Nat)) (file : Option (List Char)) : Nat :=
  if argv.length < 3 ∨ argv.length > 4 then 1
  else
    match file with
    | none => 1
    | some code =>
      let input_string := argv.getD 2 []
      let input_bits := to_bit_stream input_string
      match interpret code input_bits with
      | .exited _ => 1
      | .thrown => 0
      | .returned _ => 0

/-- The program made of `n` copies of `,;`. -/
def read_write_copies (n : Nat) : List Char :=
  (List.replicate n ",;".toList).flatten

/-- Invariant of the run of `read_write_copies n` on `input` after `k` copies
have been executed. -/
def echo_inv (n : Nat) (input : List Bool) (k : Nat) (s : State) : Prop :=
  s.code = read_write_copies n ∧ s.idx_ptr = 2 * k ∧ s.input_bits = input ∧
    s.input_ptr = min k input.length ∧
    s.output_bits = (List.range k).map (fun j => input.getD j false) ∧
    s.ptr < s.tape.length ∧ s.step_count = 2 * k

/-- The states reachable from an initial state, one whose tape holds
`INITIAL_TAPE_SIZE` zero bits with the cursor at `INITIAL_TAPE_SIZE / 2`, by
executing instructions: by running the command of any character, or by a whole
round of the loop of `interpret`. -/
inductive Reachable : State → Prop where
  | init (s : State) :
      s.tape = List.replicate INITIAL_TAPE_SIZE false → s.ptr = INITIAL_TAPE_SIZE / 2 →
      Reachable s
  | exec (c : Char) (s : State) : Reachable s → Reachable (dispatch c s)
  | round (s : State) : Reachable s → Reachable (interpret.step s)

/-! ## Reference machine of the spec: a tape infinite in both directions -/

/-- State of the reference machine: the tape is a total function from the
integers to bits and the cursor is an integer; the other components are those
of `State`. -/
structure RefState where
  tape : Int → Bool
  cursor : Int
  idx_ptr : Nat
  input_ptr : Nat
  step_count : Nat
  input_bits : List Bool
  output_bits : List Bool
  code : List Char
  loop_map : List (Nat × Nat)

/-- Initial state of the reference machine: every cell reads 0 and the cursor
is at 0. -/
def RefState.init (code : List Char) (input_bits : List Bool) (loop_map : List (Nat × Nat)) :
    RefState where
  tape := fun _ => false
  cursor := 0
  idx_ptr := 0
  input_ptr := 0
  step_count := 0
  input_bits := input_bits
  output_bits := []
  code := code
  loop_map := loop_map

/-- The seven instructions on the reference machine: flip, read-input,
write-output, move by `+1` and `-1`, loop-open and loop-close as in section 4.4
of the spec; any other character does nothing. -/
def ref_dispatch (c : Char) (r : RefState) : RefState :=
  if c = '+' then
    { r with tape := Function.update r.tape r.cursor (!(r.tape r.cursor)) }
  else if c = ',' then
    if r.input_ptr < r.input_bits.length then
      { r with
        tape := Function.update r.tape r.cursor (r.input_bits.getD r.input_ptr false)
        input_ptr := r.input_ptr + 1 }
    else
      { r with tape := Function.update r.tape r.cursor false }
  else if c = ';' then
    { r with output_bits := r.output_bits ++ [r.tape r.cursor] }
  else if c = '>' then
    { r with cursor := r.cursor + 1 }
  else if c = '<' then
    { r with cursor := r.cursor - 1 }
  else if c = '[' then
    if !(r.tape r.cursor) then
      { r with
        idx_ptr := (map_index r.loop_map r.idx_ptr).1
        loop_map := (map_index r.loop_map r.idx_ptr).2 }
    else r
  else if c = ']' then
    if r.tape r.cursor then
      { r with
        idx_ptr := (map_index r.loop_map r.idx_ptr).1
        loop_map := (map_index r.loop_map r.idx_ptr).2 }
    else r
  else r

/-- One step of the reference machine: run the instruction under the
instruction pointer, count it and advance the instruction pointer by one. -/
def ref_step (r : RefState) : RefState :=
  if h : r.idx_ptr < r.code.length then
    { ref_dispatch r.code[r.idx_ptr] r with
      step_count := r.step_count + 1
      idx_ptr := (ref_dispatch r.code[r.idx_ptr] r).idx_ptr + 1 }
  else r

/-- The run of the reference machine: it returns the output when the
instruction pointer is past the end of the program, and fails with the
execution-limit error when a further instruction would be number
`MAX_EXECUTION_STEPS + 1`. -/
def ref_loop (r : RefState) : Outcome :=
  if r.idx_ptr < r.code.length then
    if r.step_count + 1 > MAX_EXECUTION_STEPS then .thrown
    else ref_loop (ref_step r)
  else .returned r.output_bits
termination_by MAX_EXECUTION_STEPS + 1 - r.step_count
decreasing_by
  rename_i hrun hlim
  have hsc : (ref_step r).step_count = r.step_count + 1 := by
    unfold ref_step
    rw [dif_pos hrun]
  rw [hsc]
  simp only [gt_iff_lt, not_lt] at hlim
  omega

/-- The reference interpreter: the loop map is the one `build_jump_map`
resolves, and the program then runs on the reference machine. -/
def ref_interpret (code : List Char) (input_bits : List Bool) : Outcome :=
  match build_jump_map (State.init code input_bits) with
  | .error (e, _) => .exited e
  | .ok s => ref_loop (RefState.init code input_bits s.loop_map)

/-- The physical state `s` represents the reference state `r`: logical
position `z` is physical position `z + s.left_pad`, cells outside the physical
tape read 0, and all other components agree. -/
structure Represents (s : State) (r : RefState) : Prop where
  /-- The cursor is a valid physical index. -/
  in_bounds : s.ptr < s.tape.length
  /-- The logical cursor is the physical cursor minus the left padding. -/
  cursor_eq : r.cursor = (s.ptr : Int) - (s.left_pad : Int)
  /-- Every logical cell reads what the physical tape holds there. -/
  tape_eq : ∀ z : Int, r.tape z =
    if 0 ≤ z + (s.left_pad : Int) then s.tape.getD (z + (s.left_pad : Int)).toNat false
    else false
  idx_eq : r.idx_ptr = s.idx_ptr
  input_ptr_eq : r.input_ptr = s.input_ptr
  step_eq : r.step_count = s.step_count
  input_eq : r.input_bits = s.input_bits
  output_eq : r.output_bits = s.output_bits
  code_eq : r.code = s.code
  map_eq : r.loop_map = s.loop_map

/-! ## Programs without their inert characters -/

/-- A character is one of the seven opcodes when `command_map.find` finds it. -/
def is_opcode (c : Char) : Bool :=
  (command_map c).isSome

/-- The program with all non-opcode characters removed. -/
def strip (code : List Char) : List Char :=
  code.filter is_opcode

/-- The position in `strip code` that corresponds to position `k` of `code`:
the number of opcodes before `k`. -/
def opcodes_before (code : List Char) (k : Nat) : Nat :=
  ((code.take k).filter is_opcode).length

/-- The loop map of `code` carried over to the positions of `strip code`. -/
def shift_map (code : List Char) (m : List (Nat × Nat)) : List (Nat × Nat) :=
  m.map (fun p => (opcodes_before code p.1, opcodes_before code p.2))

/-- The state of the run of `strip code` that corresponds to the state `s` of
the run of `code`, after `k` executed instructions: same tape, cursor, input
and output; the instruction pointer and the loop map are carried over. -/
def retarget (code : List Char) (s : State) (k : Nat) : State :=
  { s with
    idx_ptr := opcodes_before code s.idx_ptr
    code := strip code
    loop_map := shift_map code s.loop_map
    step_count := k }

/-! ## Codec lemmas -/

theorem range8 : List.range 8 = [0, 1, 2, 3, 4, 5, 6, 7] := by decide

theorem length_bitset8 (v : Nat) : (bitset8 v).length = 8 := by
  simp [bitset8]

theorem to_bit_stream_push (b bits : List Bool) (hb : b.length = 8) :
    (List.range 8).foldl (fun bits i => bits ++ [b.getD i false]) bits = bits ++ b := by
  match b, hb with
  | [b0, b1, b2, b3, b4, b5, b6, b7], _ => simp [range8]

theorem to_bit_stream_eq_foldl (input : List Nat) :
    to_bit_stream input = input.foldl (fun bits c => bits ++ bitset8 (c % 256)) [] := by
  unfold to_bit_stream
  congr 1
  funext bits c
  exact to_bit_stream_push _ _ (length_bitset8 _)

theorem foldl_append_bitset8 (input : List Nat) (acc : List Bool) :
    input.foldl (fun bits c => bits ++ bitset8 (c % 256)) acc
      = acc ++ input.foldl (fun bits c => bits ++ bitset8 (c % 256)) [] := by
  induction input generalizing acc with
  | nil => simp
  | cons c cs ih =>
    simp only [List.foldl_cons, List.nil_append]
    rw [ih (acc ++ _), ih (bitset8 _), List.append_assoc]

theorem to_bit_stream_nil : to_bit_stream [] = [] := rfl

theorem to_bit_stream_cons (c : Nat) (cs : List Nat) :
    to_bit_stream (c :: cs) = bitset8 (c % 256) ++ to_bit_stream cs := by
  rw [to_bit_stream_eq_foldl, to_bit_stream_eq_foldl, List.foldl_cons, foldl_append_bitset8]
  simp

theorem length_to_bit_stream (input : List Nat) :
    (to_bit_stream input).length = 8 * input.length := by
  induction input with
  | nil => rfl
  | cons c cs ih =>
    rw [to_bit_stream_cons, List.length_append, length_bitset8, ih, List.length_cons]
    omega

theorem getD_bitset8 (v i : Nat) (hi : i < 8) : (bitset8 v).getD i false = v.testBit i := by
  unfold bitset8
  rw [List.getD_eq_getElem?_getD, List.getElem?_map, List.getElem?_range hi]
  rfl

theorem getD_to_bit_stream (input : List Nat) (k i : Nat) (hk : k < input.length) (hi : i < 8) :
    (to_bit_stream input).getD (8 * k + i) false = (input.getD k 0).testBit i := by
  induction input generalizing k with
  | nil => simp at hk
  | cons c cs ih =>
    rw [to_bit_stream_cons]
    cases k with
    | zero =>
      rw [List.getD_eq_getElem?_getD, List.getElem?_append_left (by rw [length_bitset8]; omega),
        ← List.getD_eq_getElem?_getD, getD_bitset8 _ _ (by omega)]
      simp only [Nat.mul_zero, Nat.zero_add, List.getD_cons_zero]
      rw [show (256 : Nat) = 2 ^ 8 from rfl, Nat.testBit_mod_two_pow]
      simp [hi]
    | succ k =>
      rw [List.getD_eq_getElem?_getD,
        List.getElem?_append_right (by rw [length_bitset8]; omega), length_bitset8,
        show 8 * (k + 1) + i - 8 = 8 * k + i by omega, ← List.getD_eq_getElem?_getD,
        ih k (by simpa using hk)]
      simp

theorem ext_getD {l1 l2 : List Bool} (hlen : l1.length = l2.length)
    (h : ∀ n, n < l1.length → l1.getD n false = l2.getD n false) : l1 = l2 := by
  apply List.ext_getElem hlen
  intro n h1 h2
  have := h n h1
  rwa [List.getD_eq_getElem _ _ h1, List.getD_eq_getElem _ _ h2] at this

theorem getD_set (b : List Bool) (j n : Nat) (v : Bool) :
    (b.set j v).getD n false = if n = j ∧ j < b.length then v else b.getD n false := by
  simp only [List.getD_eq_getElem?_getD, List.getElem?_set]
  by_cases hnj : j = n
  · subst hnj
    by_cases hl : j < b.length
    · simp [hl]
    · simp [hl, List.getElem?_eq_none (Nat.le_of_not_lt hl)]
  · have : ¬ n = j := fun h => hnj h.symm
    simp [hnj, this]

theorem length_fill (bits : List Bool) (i k j : Nat) (b : List Bool) :
    (from_bit_stream.fill bits i k j b).length = b.length := by
  induction k generalizing j b with
  | zero => rfl
  | succ k ih =>
    unfold from_bit_stream.fill
    split
    · rw [ih, List.length_set]
    · rfl

theorem getD_fill (bits : List Bool) (i k j : Nat) (b : List Bool) (n : Nat) :
    (from_bit_stream.fill bits i k j b).getD n false =
      if j ≤ n ∧ n < j + k ∧ i + n < bits.length ∧ n < b.length then bits.getD (i + n) false
      else b.getD n false := by
  induction k generalizing j b with
  | zero =>
    have : ¬ (j ≤ n ∧ n < j + 0 ∧ i + n < bits.length ∧ n < b.length) := by omega
    simp only [from_bit_stream.fill, this, if_false]
  | succ k ih =>
    unfold from_bit_stream.fill
    split
    · rename_i hlt
      rw [ih, getD_set, List.length_set]
      by_cases hnj : n = j
      · subst hnj
        by_cases hl : n < b.length
        · have h1 : ¬ (n + 1 ≤ n ∧ n < n + 1 + k ∧ i + n < bits.length ∧ n < b.length) := by omega
          have h2 : n ≤ n ∧ n < n + (k + 1) ∧ i + n < bits.length ∧ n < b.length := by omega
          simp [h1, h2, hl]
        · have h1 : ¬ (n + 1 ≤ n ∧ n < n + 1 + k ∧ i + n < bits.length ∧ n < b.length) := by omega
          have h2 : ¬ (n ≤ n ∧ n < n + (k + 1) ∧ i + n < bits.length ∧ n < b.length) := by omega
          simp [h1, h2, hl]
      · have h3 : ¬ (n = j ∧ j < b.length) := fun h => hnj h.1
        have h4 : (j + 1 ≤ n ∧ n < j + 1 + k ∧ i + n < bits.length ∧ n < b.length) ↔
            (j ≤ n ∧ n < j + (k + 1) ∧ i + n < bits.length ∧ n < b.length) := by omega
        simp only [h3, if_false, h4]
    · rename_i hge
      have : ¬ (j ≤ n ∧ n < j + (k + 1) ∧ i + n < bits.length ∧ n < b.length) := by omega
      simp only [this, if_false]

theorem length_window (bits : List Bool) (i : Nat) : (window bits i).length = 8 := by
  simp [window]

theorem getD_window (bits : List Bool) (i n : Nat) (hn : n < 8) :
    (window bits i).getD n false = bits.getD (i + n) false := by
  unfold window
  rw [List.getD_eq_getElem?_getD, List.getElem?_map, List.getElem?_range hn]
  rfl

theorem fill_eq_window (bits : List Bool) (i : Nat) :
    from_bit_stream.fill bits i 8 0 (List.replicate 8 false) = window bits i := by
  apply ext_getD
  · rw [length_fill, length_window, List.length_replicate]
  · intro n hn
    rw [length_fill, List.length_replicate] at hn
    rw [getD_fill, getD_window _ _ _ hn]
    by_cases hlt : i + n < bits.length
    · have : 0 ≤ n ∧ n < 0 + 8 ∧ i + n < bits.length ∧ n < (List.replicate 8 false).length := by
        simp [hn, hlt]
      rw [if_pos this]
    · have : ¬ (0 ≤ n ∧ n < 0 + 8 ∧ i + n < bits.length ∧ n < (List.replicate 8 false).length) :=
        fun h => hlt h.2.2.1
      rw [if_neg this, List.getD_eq_default _ _ (Nat.le_of_not_lt hlt)]
      simp only [List.getD_eq_getElem?_getD, List.getElem?_replicate]
      split <;> rfl

theorem loop_eq (bits : List Bool) (m : Nat) :
    ∀ (i : Nat) (out : List Nat), bits.length - i = m →
      from_bit_stream.loop bits i out =
        out ++ (List.range ((bits.length - i + 7) / 8)).map
          (fun t => to_ulong (window bits (i + 8 * t))) := by
  induction m using Nat.strong_induction_on with
  | _ m ih =>
    intro i out hm
    rw [from_bit_stream.loop]
    split
    · rename_i hlt
      rw [ih (bits.length - (i + 8)) (by omega) (i + 8) _ rfl, fill_eq_window]
      have hc : (bits.length - i + 7) / 8 = (bits.length - (i + 8) + 7) / 8 + 1 := by omega
      rw [hc]
      generalize (bits.length - (i + 8) + 7) / 8 = c
      have hmap : List.map (fun t => to_ulong (window bits (i + 8 + 8 * t))) (List.range c) =
          List.map ((fun t => to_ulong (window bits (i + 8 * t))) ∘ Nat.succ) (List.range c) := by
        apply List.map_congr_left
        intro t _
        show to_ulong (window bits (i + 8 + 8 * t)) = to_ulong (window bits (i + 8 * (t + 1)))
        rw [show i + 8 + 8 * t = i + 8 * (t + 1) by omega]
      rw [List.range_succ_eq_map, List.map_cons, List.map_map, List.append_assoc, hmap]
      rfl
    · rename_i hge
      have hc : (bits.length - i + 7) / 8 = 0 := by omega
      rw [hc]
      simp

theorem from_bit_stream_eq (bits : List Bool) :
    from_bit_stream bits =
      (List.range ((bits.length + 7) / 8)).map (fun k => to_ulong (window bits (8 * k))) := by
  unfold from_bit_stream
  rw [loop_eq bits _ 0 [] rfl]
  simp

theorem length_from_bit_stream (bits : List Bool) :
    (from_bit_stream bits).length = (bits.length + 7) / 8 := by
  rw [from_bit_stream_eq, List.length_map, List.length_range]

theorem getD_from_bit_stream (bits : List Bool) (k : Nat) (hk : k < (bits.length + 7) / 8) :
    (from_bit_stream bits).getD k 0 = to_ulong (window bits (8 * k)) := by
  rw [from_bit_stream_eq, List.getD_eq_getElem?_getD, List.getElem?_map, List.getElem?_range hk]
  rfl

theorem testBit_to_ulong (l : List Bool) (i : Nat) :
    (to_ulong l).testBit i = l.getD i false := by
  induction l generalizing i with
  | nil => simp [to_ulong]
  | cons b bs ih =>
    cases i with
    | zero =>
      simp only [to_ulong, List.getD_cons_zero, Nat.testBit_zero]
      cases b <;> simp [Nat.add_mod]
    | succ i =>
      simp only [to_ulong, List.getD_cons_succ, Nat.testBit_succ]
      rw [← ih i]
      congr 1
      cases b <;> simp
      omega

theorem to_ulong_lt (l : List Bool) : to_ulong l < 2 ^ l.length := by
  induction l with
  | nil => simp [to_ulong]
  | cons b bs ih =>
    simp only [to_ulong, List.length_cons, Nat.pow_succ]
    cases b <;> simp <;> omega

theorem to_ulong_bitset8 (v : Nat) : to_ulong (bitset8 v) = v % 256 := by
  apply Nat.eq_of_testBit_eq
  intro i
  rw [testBit_to_ulong, show (256 : Nat) = 2 ^ 8 from rfl, Nat.testBit_mod_two_pow]
  by_cases hi : i < 8
  · rw [getD_bitset8 _ _ hi]
    simp [hi]
  · rw [List.getD_eq_default _ _ (by rw [length_bitset8]; omega)]
    simp [hi]

theorem window_to_bit_stream (x : List Nat) (k : Nat) (hk : k < x.length) :
    window (to_bit_stream x) (8 * k) = bitset8 (x.getD k 0) := by
  unfold window bitset8
  apply List.map_congr_left
  intro j hj
  exact getD_to_bit_stream x k j hk (List.mem_range.mp hj)

theorem getD_reencode (b : List Bool) (n : Nat) (hn : n < 8 * ((b.length + 7) / 8)) :
    (to_bit_stream (from_bit_stream b)).getD n false = b.getD n false := by
  have hk : n / 8 < (from_bit_stream b).length := by
    rw [length_from_bit_stream]; omega
  have hi : n % 8 < 8 := Nat.mod_lt _ (by decide)
  have hsplit : n = 8 * (n / 8) + n % 8 := (Nat.div_add_mod n 8).symm
  rw [hsplit, getD_to_bit_stream _ _ _ hk hi,
    getD_from_bit_stream _ _ (by rw [length_from_bit_stream] at hk; exact hk),
    testBit_to_ulong, getD_window _ _ _ hi]

theorem to_ulong_window (bits : List Bool) (i : Nat) :
    to_ulong (window bits i) =
      ∑ j ∈ Finset.range 8, (bits.getD (i + j) false).toNat * 2 ^ j := by
  simp only [window, range8, List.map_cons, List.map_nil, to_ulong, Finset.sum_range_succ,
    Finset.sum_range_zero]
  norm_num
  omega

/-! ## Claims C1-C4: the codec -/

/-- Claim C1: for every byte sequence `x` (every element below 256),
`from_bit_stream (to_bit_stream x) = x`: decoding undoes encoding. -/
theorem decode_encode (x : List Nat) (hx : ∀ c ∈ x, c < 256) :
    from_bit_stream (to_bit_stream x) = x := by
  have hlen : (from_bit_stream (to_bit_stream x)).length = x.length := by
    rw [length_from_bit_stream, length_to_bit_stream]; omega
  apply List.ext_getElem hlen
  intro k h1 h2
  have hk : k < ((to_bit_stream x).length + 7) / 8 := by
    rw [length_to_bit_stream]; omega
  have hget := getD_from_bit_stream (to_bit_stream x) k hk
  rw [window_to_bit_stream x k h2, to_ulong_bitset8, List.getD_eq_getElem _ _ h1,
    List.getD_eq_getElem _ _ h2] at hget
  rw [hget]
  exact Nat.mod_eq_of_lt (hx _ (List.getElem_mem h2))

/-- Witness of `decode_encode` at the bytes `[1, 255, 0, 72]`. -/
theorem decode_encode_witness :
    (∀ c ∈ [1, 255, 0, 72], c < 256) ∧
      from_bit_stream (to_bit_stream [1, 255, 0, 72]) = [1, 255, 0, 72] :=
  ⟨by decide, decode_encode [1, 255, 0, 72] (by decide)⟩

/-- Claim C2: `to_bit_stream x` has length exactly `8 * x.length`, and for every
`k < x.length` and `i < 8` its bit at index `8 * k + i` is bit `i` of the byte
`x[k]`, counted from the least-significant bit. -/
theorem to_bit_stream_spec (x : List Nat) :
    (to_bit_stream x).length = 8 * x.length ∧
      ∀ (k : Nat) (hk : k < x.length) (i : Nat), i < 8 →
        (to_bit_stream x)[8 * k + i]? = some (x[k].testBit i) := by
  refine ⟨length_to_bit_stream x, ?_⟩
  intro k hk i hi
  have hlt : 8 * k + i < (to_bit_stream x).length := by
    rw [length_to_bit_stream]; omega
  have := getD_to_bit_stream x k i hk hi
  rw [List.getD_eq_getElem _ _ hlt, List.getD_eq_getElem _ _ hk] at this
  rw [List.getElem?_eq_getElem hlt, this]

/-- Witness of `to_bit_stream_spec`: bit 2 of the second byte of `[1, 6]`. -/
theorem to_bit_stream_spec_witness :
    (to_bit_stream [1, 6])[8 * 1 + 2]? = some ([1, 6][1].testBit 2) :=
  (to_bit_stream_spec [1, 6]).2 1 (by decide) 2 (by decide)

/-- Claim C3: for a bit sequence `b` of length `n`, `from_bit_stream b` has
exactly `⌈n / 8⌉ = (n + 7) / 8` bytes, and byte `k` is the sum, over the
`j < 8` with `8 * k + j < n`, of `b[8 * k + j] * 2 ^ j`. -/
theorem from_bit_stream_spec (b : List Bool) :
    (from_bit_stream b).length = (b.length + 7) / 8 ∧
      ∀ k : Nat, k < (b.length + 7) / 8 →
        (from_bit_stream b)[k]? =
          some (∑ j ∈ (Finset.range 8).filter (fun j => 8 * k + j < b.length),
            (b.getD (8 * k + j) false).toNat * 2 ^ j) := by
  refine ⟨length_from_bit_stream b, ?_⟩
  intro k hk
  have hlt : k < (from_bit_stream b).length := by rw [length_from_bit_stream]; exact hk
  have := getD_from_bit_stream b k hk
  rw [List.getD_eq_getElem _ _ hlt] at this
  rw [List.getElem?_eq_getElem hlt, this, to_ulong_window, Finset.sum_filter]
  congr 1
  apply Finset.sum_congr rfl
  intro j _
  by_cases hj : 8 * k + j < b.length
  · rw [if_pos hj]
  · rw [if_neg hj, List.getD_eq_default _ _ (Nat.le_of_not_lt hj)]
    simp

/-- Witness of `from_bit_stream_spec`: the second byte of an 11-bit sequence. -/
theorem from_bit_stream_spec_witness :
    (from_bit_stream [true, false, false, false, false, false, false, false, true, true, true])[1]?
      = some (∑ j ∈ (Finset.range 8).filter (fun j => 8 * 1 + j < 11),
          (([true, false, false, false, false, false, false, false, true, true, true] :
            List Bool).getD (8 * 1 + j) false).toNat * 2 ^ j) :=
  (from_bit_stream_spec
    [true, false, false, false, false, false, false, false, true, true, true]).2 1 (by decide)

/-- Claim C4: `to_bit_stream (from_bit_stream b) = b` if and only if the length
of `b` is a multiple of 8. -/
theorem encode_decode_iff (b : List Bool) :
    to_bit_stream (from_bit_stream b) = b ↔ b.length % 8 = 0 := by
  have hlen : (to_bit_stream (from_bit_stream b)).length = 8 * ((b.length + 7) / 8) := by
    rw [length_to_bit_stream, length_from_bit_stream]
  constructor
  · intro h
    rw [h] at hlen
    omega
  · intro h
    apply ext_getD
    · rw [hlen]; omega
    · intro n hn
      exact getD_reencode b n (by rw [hlen] at hn; exact hn)

/-! ## Loop resolver lemmas -/

theorem lookup_assign (m : List (Nat × Nat)) (k v k2 : Nat) :
    (map_assign m k v).lookup k2 = if k2 = k then some v else m.lookup k2 := by
  unfold map_assign
  rw [List.lookup_cons]
  by_cases h : k2 = k
  · simp [h]
  · have hb : (k2 == k) = false := by simpa using h
    simp [h, hb]

theorem scanInv_init (code : List Char) : ScanInv code 0 [] [] where
  stack_sorted := List.Pairwise.nil
  stack_open := by simp
  keys := by simp
  pair := by simp

theorem scanInv_open (code : List Char) (i : Nat) (stack : List Nat) (m : List (Nat × Nat))
    (h : ScanInv code i stack m) (hc : code[i]? = some '[') :
    ScanInv code (i + 1) (i :: stack) m where
  stack_sorted := List.Pairwise.cons (fun p hp => (h.stack_open p hp).1) h.stack_sorted
  stack_open := by
    intro p hp
    rcases List.mem_cons.mp hp with rfl | hp
    · exact ⟨Nat.lt_succ_self _, hc⟩
    · exact ⟨Nat.lt_succ_of_lt (h.stack_open p hp).1, (h.stack_open p hp).2⟩
  keys := by
    intro k
    rw [h.keys k, List.mem_cons]
    constructor
    · rintro ⟨h1, h2, h3⟩
      exact ⟨by omega, h2, by rintro (rfl | h4); exacts [absurd h1 (by omega), h3 h4]⟩
    · rintro ⟨h1, h2, h3⟩
      have hne : k ≠ i := fun e => h3 (Or.inl e)
      exact ⟨by omega, h2, fun h4 => h3 (Or.inr h4)⟩
  pair := h.pair

theorem scanInv_other (code : List Char) (i : Nat) (stack : List Nat) (m : List (Nat × Nat))
    (h : ScanInv code i stack m) (c : Char) (hc : code[i]? = some c) (h1 : c ≠ '[')
    (h2 : c ≠ ']') : ScanInv code (i + 1) stack m where
  stack_sorted := h.stack_sorted
  stack_open := fun p hp => ⟨Nat.lt_succ_of_lt (h.stack_open p hp).1, (h.stack_open p hp).2⟩
  keys := by
    intro k
    rw [h.keys k]
    constructor
    · rintro ⟨h3, h4, h5⟩
      exact ⟨by omega, h4, h5⟩
    · rintro ⟨h3, h4, h5⟩
      have hne : k ≠ i := by
        rintro rfl
        rw [hc] at h4
        rcases h4 with h4 | h4
        · exact h1 (Option.some.inj h4)
        · exact h2 (Option.some.inj h4)
      exact ⟨by omega, h4, h5⟩
  pair := h.pair

theorem scanInv_close (code : List Char) (i start : Nat) (rest : List Nat)
    (m : List (Nat × Nat)) (h : ScanInv code i (start :: rest) m) (hc : code[i]? = some ']') :
    ScanInv code (i + 1) rest (map_assign (map_assign m start i) i start) := by
  have hstart : start < i ∧ code[start]? = some '[' := h.stack_open start (List.mem_cons_self _ _)
  have hsorted := List.pairwise_cons.mp h.stack_sorted
  have hlook : ∀ k, (map_assign (map_assign m start i) i start).lookup k =
      if k = i then some start else if k = start then some i else m.lookup k := by
    intro k
    rw [lookup_assign, lookup_assign]
  have hnotin : start ∉ rest := fun hin => absurd (hsorted.1 start hin) (Nat.lt_irrefl _)
  refine ⟨hsorted.2, ?_, ?_, ?_⟩
  · intro p hp
    have := h.stack_open p (List.mem_cons_of_mem _ hp)
    exact ⟨Nat.lt_succ_of_lt this.1, this.2⟩
  · intro k
    rw [hlook]
    by_cases hki : k = i
    · subst hki
      simp only [if_true, Option.isSome_some, true_iff]
      refine ⟨Nat.lt_succ_self _, Or.inr hc, ?_⟩
      intro hin
      exact absurd (h.stack_open k (List.mem_cons_of_mem _ hin)).1 (Nat.lt_irrefl _)
    · by_cases hks : k = start
      · subst hks
        simp only [hki, if_false, if_true, Option.isSome_some, true_iff]
        exact ⟨Nat.lt_succ_of_lt hstart.1, Or.inl hstart.2, hnotin⟩
      · simp only [hki, hks, if_false]
        rw [h.keys k, List.mem_cons]
        constructor
        · rintro ⟨h1, h2, h3⟩
          exact ⟨by omega, h2, fun h4 => h3 (Or.inr h4)⟩
        · rintro ⟨h1, h2, h3⟩
          exact ⟨by omega, h2, by rintro (h4 | h4); exacts [hks h4, h3 h4]⟩
  · intro k v hkv
    rw [hlook] at hkv
    rw [hlook]
    by_cases hki : k = i
    · subst hki
      simp only [if_true, Option.some.injEq] at hkv
      subst hkv
      have hne : start ≠ k := Nat.ne_of_lt hstart.1
      simp only [hne, if_false, if_true, true_and]
      exact Or.inr ⟨hc, hstart.2, hstart.1⟩
    · by_cases hks : k = start
      · subst hks
        simp only [hki, if_false, if_true, Option.some.injEq] at hkv
        subst hkv
        simp only [if_true, true_and]
        exact Or.inl ⟨hstart.2, hc, hstart.1⟩
      · simp only [hki, hks, if_false] at hkv
        have hold := h.pair k v hkv
        have hvkey := (h.keys v).mp (by rw [hold.1]; rfl)
        have hvi : v ≠ i := Nat.ne_of_lt hvkey.1
        have hvs : v ≠ start := fun e => hvkey.2.2 (e ▸ List.mem_cons_self _ _)
        simp only [hvi, hvs, if_false]
        exact hold

theorem getElem?_of_drop (code : List Char) (i : Nat) (c : Char) (cs : List Char)
    (h : code.drop i = c :: cs) : code[i]? = some c ∧ code.drop (i + 1) = cs := by
  constructor
  · have := congrArg (fun l => l[0]?) h
    simpa using this
  · have := congrArg List.tail h
    simpa using this

theorem scan_inv (code : List Char) (cs : List Char) :
    ∀ (i : Nat) (stack : List Nat) (m : List (Nat × Nat)) (st2 : List Nat)
      (m2 : List (Nat × Nat)), code.drop i = cs → ScanInv code i stack m →
      build_jump_map.scan cs i stack m = .ok (st2, m2) → ScanInv code code.length st2 m2 := by
  induction cs with
  | nil =>
    intro i stack m st2 m2 hdrop hinv hscan
    simp only [build_jump_map.scan, Except.ok.injEq, Prod.mk.injEq] at hscan
    obtain ⟨rfl, rfl⟩ := hscan
    have hle : code.length ≤ i := List.drop_eq_nil_iff.mp hdrop
    refine ⟨hinv.stack_sorted, ?_, ?_, hinv.pair⟩
    · intro p hp
      have := hinv.stack_open p hp
      have hlt : p < code.length := by
        by_contra hge
        rw [List.getElem?_eq_none (Nat.le_of_not_lt hge)] at this
        exact absurd this.2 (by simp)
      exact ⟨hlt, this.2⟩
    · intro k
      rw [hinv.keys k]
      constructor
      · rintro ⟨h1, h2, h3⟩
        have hlt : k < code.length := by
          by_contra hge
          rw [List.getElem?_eq_none (Nat.le_of_not_lt hge)] at h2
          simp at h2
        exact ⟨hlt, h2, h3⟩
      · rintro ⟨h1, h2, h3⟩
        exact ⟨by omega, h2, h3⟩
  | cons c cs ih =>
    intro i stack m st2 m2 hdrop hinv hscan
    obtain ⟨hci, hdrop2⟩ := getElem?_of_drop code i c cs hdrop
    unfold build_jump_map.scan at hscan
    split at hscan
    · rename_i hopen
      exact ih _ _ _ _ _ hdrop2 (scanInv_open code i stack m hinv (hopen ▸ hci)) hscan
    · split at hscan
      · rename_i hnopen hclose
        split at hscan
        · exact absurd hscan (by simp)
        · exact ih _ _ _ _ _ hdrop2 (scanInv_close code i _ _ m hinv (hclose ▸ hci)) hscan
      · rename_i hnopen hnclose
        exact ih _ _ _ _ _ hdrop2 (scanInv_other code i stack m hinv c hci hnopen hnclose) hscan

theorem scan_balanced (cs : List Char) :
    ∀ (i : Nat) (stack : List Nat) (m : List (Nat × Nat)),
      balanced.go cs stack.length = true ↔
        ∃ m2, build_jump_map.scan cs i stack m = .ok ([], m2) := by
  induction cs with
  | nil =>
    intro i stack m
    cases stack <;> simp [balanced.go, build_jump_map.scan]
  | cons c cs ih =>
    intro i stack m
    unfold balanced.go build_jump_map.scan
    split
    · exact ih (i + 1) (i :: stack) m
    · split
      · cases stack with
        | nil => simp
        | cons start rest => exact ih (i + 1) rest _
      · exact ih (i + 1) stack m

theorem build_ok_of_scan (s : State) (m : List (Nat × Nat))
    (h : build_jump_map.scan s.code 0 [] s.loop_map = .ok ([], m)) :
    build_jump_map s = .ok { s with loop_map := m } := by
  simp only [build_jump_map, h]

theorem scan_of_build_ok (s s2 : State) (h : build_jump_map s = .ok s2) :
    ∃ m, build_jump_map.scan s.code 0 [] s.loop_map = .ok ([], m) ∧
      s2 = { s with loop_map := m } := by
  unfold build_jump_map at h
  split at h
  · exact absurd h (by simp)
  · rename_i m hscan
    exact ⟨m, hscan, (Except.ok.inj h).symm⟩
  · exact absurd h (by simp)

theorem build_ok_iff_balanced (code : List Char) (input : List Bool) :
    (∃ s, build_jump_map (State.init code input) = .ok s) ↔ balanced code = true := by
  rw [balanced, show (0 : Nat) = ([] : List Nat).length from rfl,
    scan_balanced code 0 [] (State.init code input).loop_map]
  constructor
  · rintro ⟨s, hs⟩
    obtain ⟨m, hm, _⟩ := scan_of_build_ok _ _ hs
    exact ⟨m, hm⟩
  · rintro ⟨m, hm⟩
    exact ⟨_, build_ok_of_scan (State.init code input) m hm⟩

theorem build_inv (code : List Char) (input : List Bool) (s : State)
    (h : build_jump_map (State.init code input) = .ok s) :
    ScanInv code code.length [] s.loop_map := by
  obtain ⟨m, hm, rfl⟩ := scan_of_build_ok _ _ h
  exact scan_inv code code 0 [] [] [] m rfl (scanInv_init code) hm

theorem lt_length_of_getElem? (code : List Char) (k : Nat)
    (h : code[k]? = some '[' ∨ code[k]? = some ']') : k < code.length := by
  by_contra hge
  rw [List.getElem?_eq_none (Nat.le_of_not_lt hge)] at h
  simp at h

theorem map_index_of_lookup (m : List (Nat × Nat)) (k v : Nat) (h : m.lookup k = some v) :
    map_index m k = (v, m) := by
  simp only [map_index, h]

/-! ## Claims C5-C8: the loop resolver -/

/-- Claim C5: for every program with balanced brackets `build_jump_map`
succeeds and its loop map is an involution on bracket positions: every position
`i` holding `[` or `]` has an entry `j` whose own entry is `i`, so that
`loop_map[loop_map[i]]` is `i`. -/
theorem loop_map_involution (code : List Char) (input : List Bool)
    (hb : balanced code = true) :
    ∃ s, build_jump_map (State.init code input) = .ok s ∧
      ∀ i, (code[i]? = some '[' ∨ code[i]? = some ']') →
        (∃ j, s.loop_map.lookup i = some j ∧ s.loop_map.lookup j = some i) ∧
          (map_index s.loop_map (map_index s.loop_map i).1).1 = i := by
  obtain ⟨s, hs⟩ := (build_ok_iff_balanced code input).mpr hb
  refine ⟨s, hs, ?_⟩
  intro i hi
  have inv := build_inv code input s hs
  have hkey := (inv.keys i).mpr ⟨lt_length_of_getElem? code i hi, hi, by simp⟩
  obtain ⟨j, hj⟩ := Option.isSome_iff_exists.mp hkey
  have hji := (inv.pair i j hj).1
  refine ⟨⟨j, hj, hji⟩, ?_⟩
  rw [map_index_of_lookup _ _ _ hj, map_index_of_lookup _ _ _ hji]

/-- Witness of `loop_map_involution` at the program `[+[,]]`. -/
theorem loop_map_involution_witness :
    balanced "[+[,]]".toList = true ∧
      ∃ s, build_jump_map (State.init "[+[,]]".toList []) = .ok s ∧
        ∀ i, ("[+[,]]".toList[i]? = some '[' ∨ "[+[,]]".toList[i]? = some ']') →
          (∃ j, s.loop_map.lookup i = some j ∧ s.loop_map.lookup j = some i) ∧
            (map_index s.loop_map (map_index s.loop_map i).1).1 = i :=
  ⟨by decide, loop_map_involution "[+[,]]".toList [] (by decide)⟩

/-- Claim C6: whenever `build_jump_map` succeeds, the keys of the loop map are
exactly the positions holding `[` or `]`, every `[` at `i` is mapped to a
position `j > i` holding `]`, and every `]` at `i` is mapped to a position
`j < i` holding `[`. -/
theorem loop_map_keys (code : List Char) (input : List Bool) (s : State)
    (h : build_jump_map (State.init code input) = .ok s) :
    (∀ k, (s.loop_map.lookup k).isSome ↔ (code[k]? = some '[' ∨ code[k]? = some ']')) ∧
      (∀ i, code[i]? = some '[' →
        ∃ j, s.loop_map.lookup i = some j ∧ i < j ∧ code[j]? = some ']') ∧
      (∀ i, code[i]? = some ']' →
        ∃ j, s.loop_map.lookup i = some j ∧ j < i ∧ code[j]? = some '[') := by
  have inv := build_inv code input s h
  have hkeys : ∀ k, (s.loop_map.lookup k).isSome ↔
      (code[k]? = some '[' ∨ code[k]? = some ']') := by
    intro k
    rw [inv.keys k]
    constructor
    · exact fun hk => hk.2.1
    · exact fun hk => ⟨lt_length_of_getElem? code k hk, hk, by simp⟩
  refine ⟨hkeys, ?_, ?_⟩
  · intro i hi
    obtain ⟨j, hj⟩ := Option.isSome_iff_exists.mp ((hkeys i).mpr (Or.inl hi))
    rcases (inv.pair i j hj).2 with ⟨_, h2, h3⟩ | ⟨h1, _, _⟩
    · exact ⟨j, hj, h3, h2⟩
    · rw [hi] at h1
      exact absurd h1 (by decide)
  · intro i hi
    obtain ⟨j, hj⟩ := Option.isSome_iff_exists.mp ((hkeys i).mpr (Or.inr hi))
    rcases (inv.pair i j hj).2 with ⟨h1, _, _⟩ | ⟨_, h2, h3⟩
    · rw [hi] at h1
      exact absurd h1 (by decide)
    · exact ⟨j, hj, h3, h2⟩

/-- Witness of `loop_map_keys` at the program `[+]`, whose map is
`2 ↦ 0, 0 ↦ 2`. -/
theorem loop_map_keys_witness :
    build_jump_map (State.init "[+]".toList []) =
        .ok { State.init "[+]".toList [] with loop_map := [(2, 0), (0, 2)] } ∧
      ∃ j, ([(2, 0), (0, 2)] : List (Nat × Nat)).lookup 0 = some j ∧ 0 < j ∧
        "[+]".toList[j]? = some ']' :=
  ⟨rfl, (loop_map_keys "[+]".toList [] _ rfl).2.1 0 rfl⟩

/-- Claim C8 as stated fails at the program `[[`: the scan ends with the stack
`[1, 0]` (top first), whose bottom, the oldest pending open, is position 0, yet
the diagnostic reports position 1 and not position 0. -/
theorem unmatched_open_counterexample :
    build_jump_map.scan "[[".toList 0 [] [] = .ok ([1, 0], []) ∧
      (∃ s, build_jump_map (State.init "[[".toList []) = .error (.unmatched_open 1, s)) ∧
      ¬ ∃ s, build_jump_map (State.init "[[".toList []) = .error (.unmatched_open 0, s) := by
  refine ⟨rfl, ⟨_, rfl⟩, ?_⟩
  rintro ⟨s, hs⟩
  have h1 : build_jump_map (State.init "[[".toList []) =
      .error (.unmatched_open 1, { State.init "[[".toList [] with loop_map := [] }) := rfl
  rw [h1] at hs
  simp at hs

/-- Claim C8, amended: when the scan ends with at least one pending loop-open
(and met no unmatched close), the "unmatched open" diagnostic reports the top of
the stack: the most recently pushed pending open, a position holding `[` that
lies to the right of every other pending open. -/
theorem unmatched_open_reports_top (code : List Char) (input : List Bool) (st : List Nat)
    (m : List (Nat × Nat)) (hscan : build_jump_map.scan code 0 [] [] = .ok (st, m))
    (hne : st ≠ []) :
    ∃ p rest, st = p :: rest ∧
      build_jump_map (State.init code input) =
        .error (.unmatched_open p, { State.init code input with loop_map := m }) ∧
      code[p]? = some '[' ∧ ∀ q ∈ rest, q < p := by
  have inv := scan_inv code code 0 [] [] st m rfl (scanInv_init code) hscan
  cases st with
  | nil => exact absurd rfl hne
  | cons p rest =>
    refine ⟨p, rest, rfl, ?_, (inv.stack_open p (List.mem_cons_self _ _)).2,
      (List.pairwise_cons.mp inv.stack_sorted).1⟩
    have hs : build_jump_map.scan (State.init code input).code 0 []
        (State.init code input).loop_map = .ok (p :: rest, m) := hscan
    simp only [build_jump_map, hs]

/-- Witness of `unmatched_open_reports_top` at the program `[[`. -/
theorem unmatched_open_reports_top_witness :
    build_jump_map.scan "[[".toList 0 [] [] = .ok ([1, 0], []) ∧ ([1, 0] : List Nat) ≠ [] ∧
      ∃ p rest, ([1, 0] : List Nat) = p :: rest ∧
        build_jump_map (State.init "[[".toList []) =
          .error (.unmatched_open p, { State.init "[[".toList [] with loop_map := [] }) ∧
        "[[".toList[p]? = some '[' ∧ ∀ q ∈ rest, q < p :=
  ⟨rfl, by decide, unmatched_open_reports_top "[[".toList [] [1, 0] [] rfl (by decide)⟩

/-! ## Execution engine lemmas -/

theorem loop_halt (s : State) (h : ¬ s.idx_ptr < s.code.length) :
    interpret.loop s = (.returned s.output_bits, s) := by
  rw [interpret.loop]
  simp only [h, dite_false]

theorem loop_limit (s : State) (h : s.idx_ptr < s.code.length)
    (hlim : MAX_EXECUTION_STEPS < s.step_count + 1) :
    interpret.loop s = (.thrown, { s with step_count := s.step_count + 1 }) := by
  rw [interpret.loop]
  simp only [h, dite_true, gt_iff_lt, hlim, if_true]

theorem loop_step (s : State) (h : s.idx_ptr < s.code.length)
    (hlim : s.step_count + 1 ≤ MAX_EXECUTION_STEPS) :
    interpret.loop s = interpret.loop (interpret.step s) := by
  rw [interpret.loop]
  have : ¬ MAX_EXECUTION_STEPS < s.step_count + 1 := Nat.not_lt.mpr hlim
  simp only [h, dite_true, gt_iff_lt, this, if_false, interpret.step]

theorem dispatch_code (c : Char) (s : State) : (dispatch c s).code = s.code := by
  unfold dispatch command_map
  split_ifs <;>
    simp only [PlusCmd, InputCmd, OutputCmd, MoveRightCmd, MoveLeftCmd, JumpForwardCmd,
      JumpBackwardCmd] <;>
    split_ifs <;> rfl

theorem dispatch_step_count (c : Char) (s : State) :
    (dispatch c s).step_count = s.step_count := by
  unfold dispatch command_map
  split_ifs <;>
    simp only [PlusCmd, InputCmd, OutputCmd, MoveRightCmd, MoveLeftCmd, JumpForwardCmd,
      JumpBackwardCmd] <;>
    split_ifs <;> rfl

theorem step_code (s : State) : (interpret.step s).code = s.code := by
  unfold interpret.step
  split
  · simp only [dispatch_code]
  · rfl

theorem step_step_count (s : State) (h : s.idx_ptr < s.code.length) :
    (interpret.step s).step_count = s.step_count + 1 := by
  unfold interpret.step
  simp only [h, dite_true, dispatch_step_count]

theorem step_halted (s : State) (h : ¬ s.idx_ptr < s.code.length) : interpret.step s = s := by
  unfold interpret.step
  simp only [h, dite_false]

theorem iterate_halted (s : State) (h : ¬ s.idx_ptr < s.code.length) (n : Nat) :
    interpret.step^[n] s = s := by
  induction n with
  | zero => rfl
  | succ n ih => rw [Function.iterate_succ_apply, step_halted s h, ih]

theorem loop_returns (n : Nat) :
    ∀ s : State, s.step_count + n ≤ MAX_EXECUTION_STEPS →
      ¬ (interpret.step^[n] s).idx_ptr < (interpret.step^[n] s).code.length →
      interpret.loop s =
        (.returned (interpret.step^[n] s).output_bits, interpret.step^[n] s) := by
  induction n with
  | zero =>
    intro s _ hhalt
    exact loop_halt s hhalt
  | succ n ih =>
    intro s hsc hhalt
    by_cases hrun : s.idx_ptr < s.code.length
    · rw [loop_step s hrun (by omega), Function.iterate_succ_apply]
      rw [Function.iterate_succ_apply] at hhalt
      exact ih (interpret.step s) (by rw [step_step_count s hrun]; omega) hhalt
    · rw [iterate_halted s hrun]
      exact loop_halt s hrun

theorem loop_throws (n : Nat) :
    ∀ s : State, s.step_count + n = MAX_EXECUTION_STEPS →
      (interpret.step^[n] s).idx_ptr < (interpret.step^[n] s).code.length →
      interpret.loop s =
        (.thrown, { interpret.step^[n] s with step_count := MAX_EXECUTION_STEPS + 1 }) := by
  induction n with
  | zero =>
    intro s hsc hrun
    rw [loop_limit s hrun (by omega)]
    simp only [Function.iterate_zero, id_eq]
    rw [show s.step_count = MAX_EXECUTION_STEPS by omega]
  | succ n ih =>
    intro s hsc hrun
    have hrun0 : s.idx_ptr < s.code.length := by
      by_contra hhalt
      rw [iterate_halted s hhalt] at hrun
      exact hhalt hrun
    rw [loop_step s hrun0 (by omega), Function.iterate_succ_apply]
    rw [Function.iterate_succ_apply] at hrun
    exact ih (interpret.step s) (by rw [step_step_count s hrun0]; omega) hrun

theorem loop_outcome (m : Nat) :
    ∀ s : State, MAX_EXECUTION_STEPS + 1 - s.step_count = m →
      (interpret.loop s).1 = .thrown ∨ ∃ out, (interpret.loop s).1 = .returned out := by
  induction m using Nat.strong_induction_on with
  | _ m ih =>
    intro s hm
    by_cases hrun : s.idx_ptr < s.code.length
    · by_cases hlim : MAX_EXECUTION_STEPS < s.step_count + 1
      · rw [loop_limit s hrun hlim]
        exact Or.inl rfl
      · rw [loop_step s hrun (Nat.le_of_not_lt hlim)]
        exact ih (MAX_EXECUTION_STEPS + 1 - (interpret.step s).step_count)
          (by rw [step_step_count s hrun]; omega) (interpret.step s) rfl
    · rw [loop_halt s hrun]
      exact Or.inr ⟨_, rfl⟩

theorem interpret_of_build_ok (code : List Char) (input : List Bool) (s : State)
    (h : build_jump_map (State.init code input) = .ok s) :
    interpret.run code input = interpret.loop s := by
  simp only [interpret.run, h]

theorem interpret_of_build_error (code : List Char) (input : List Bool) (e : BracketError)
    (s : State) (h : build_jump_map (State.init code input) = .error (e, s)) :
    interpret.run code input = (.exited e, s) := by
  simp only [interpret.run, h]

theorem build_error_state (s s2 : State) (e : BracketError)
    (h : build_jump_map s = .error (e, s2)) : ∃ m, s2 = { s with loop_map := m } := by
  unfold build_jump_map at h
  split at h
  · rename_i e2 m _
    exact ⟨m, (Prod.mk.inj (Except.error.inj h)).2.symm⟩
  · exact absurd h (by simp)
  · rename_i top _ m _
    exact ⟨m, (Prod.mk.inj (Except.error.inj h)).2.symm⟩

theorem go_replicate_open (N d : Nat) :
    balanced.go (List.replicate N '[') d = (d + N == 0) := by
  induction N generalizing d with
  | zero => rfl
  | succ N ih =>
    simp only [List.replicate_succ, balanced.go, if_true, ih]
    congr 1
    omega

theorem balanced_replicate_open (N : Nat) (hN : 1 ≤ N) :
    balanced (List.replicate N '[') = false := by
  rw [balanced, go_replicate_open]
  simp
  omega

theorem balanced_replicate_close (N : Nat) (hN : 1 ≤ N) :
    balanced (List.replicate N ']') = false := by
  obtain ⟨k, rfl⟩ : ∃ k, N = k + 1 := ⟨N - 1, by omega⟩
  simp [balanced, List.replicate_succ, balanced.go]

theorem exited_iff_unbalanced (code : List Char) (input : List Bool) :
    (∃ e, interpret code input = .exited e) ↔ balanced code = false := by
  constructor
  · rintro ⟨e, he⟩
    by_contra hb
    obtain ⟨s, hs⟩ := (build_ok_iff_balanced code input).mpr (by simpa using hb)
    rw [interpret, interpret_of_build_ok code input s hs] at he
    rcases loop_outcome _ s rfl with h | ⟨out, h⟩ <;> rw [h] at he <;> simp at he
  · intro hb
    cases hres : build_jump_map (State.init code input) with
    | error es =>
      exact ⟨es.1, by rw [interpret, interpret_of_build_error code input es.1 es.2 hres]⟩
    | ok s =>
      have := (build_ok_iff_balanced code input).mp ⟨s, hres⟩
      rw [hb] at this
      exact absurd this (by simp)

theorem step_of_getElem? (s : State) (c : Char) (h : s.code[s.idx_ptr]? = some c) :
    interpret.step s =
      { dispatch c { s with step_count := s.step_count + 1 } with
        idx_ptr := (dispatch c { s with step_count := s.step_count + 1 }).idx_ptr + 1 } := by
  have hlt : s.idx_ptr < s.code.length := by
    by_contra hge
    rw [List.getElem?_eq_none (Nat.le_of_not_lt hge)] at h
    exact absurd h (by simp)
  have hc : s.code[s.idx_ptr] = c := by
    rw [List.getElem?_eq_getElem hlt] at h
    exact Option.some.inj h
  unfold interpret.step
  simp only [hlt, dite_true, hc]

theorem step_plus (s : State) (h : s.code[s.idx_ptr]? = some '+') :
    interpret.step s =
      { s with
        tape := s.tape.set s.ptr (!(s.tape.getD s.ptr false))
        step_count := s.step_count + 1
        idx_ptr := s.idx_ptr + 1 } := by
  rw [step_of_getElem? s '+' h]
  rfl

theorem step_open_true (s : State) (h : s.code[s.idx_ptr]? = some '[')
    (hb : s.tape.getD s.ptr false = true) :
    interpret.step s = { s with step_count := s.step_count + 1, idx_ptr := s.idx_ptr + 1 } := by
  rw [step_of_getElem? s '[' h]
  have hd : dispatch '[' { s with step_count := s.step_count + 1 } =
      { s with step_count := s.step_count + 1 } := by
    show JumpForwardCmd _ = _
    unfold JumpForwardCmd
    simp only [hb, Bool.not_true, Bool.false_eq_true, if_false]
  rw [hd]

theorem step_close_true (s : State) (v : Nat) (h : s.code[s.idx_ptr]? = some ']')
    (hb : s.tape.getD s.ptr false = true) (hl : s.loop_map.lookup s.idx_ptr = some v) :
    interpret.step s = { s with step_count := s.step_count + 1, idx_ptr := v + 1 } := by
  rw [step_of_getElem? s ']' h]
  have hd : dispatch ']' { s with step_count := s.step_count + 1 } =
      { s with step_count := s.step_count + 1, idx_ptr := v } := by
    show JumpBackwardCmd _ = _
    unfold JumpBackwardCmd
    simp only [hb, if_true, map_index_of_lookup _ _ _ hl]
  rw [hd]

theorem getD_set_self (t : List Bool) (p : Nat) (v : Bool) (hp : p < t.length) :
    (t.set p v).getD p false = v := by
  rw [getD_set, if_pos ⟨rfl, hp⟩]

theorem toggle_step (s : State) (h : toggle_inv s) : toggle_inv (interpret.step s) := by
  obtain ⟨hcode, hmap, hptr, hcase⟩ := h
  rcases hcase with ⟨hi, hb⟩ | ⟨hi, hb⟩ | ⟨hi, hb⟩ | ⟨hi, hb⟩ | ⟨hi, hb⟩
  · rw [step_plus s (by rw [hcode, hi]; rfl)]
    refine ⟨hcode, hmap, ?_, Or.inr (Or.inl ⟨?_, ?_⟩)⟩
    · show s.ptr < (s.tape.set s.ptr _).length
      rw [List.length_set]; exact hptr
    · show s.idx_ptr + 1 = 1
      rw [hi]
    · show (s.tape.set s.ptr _).getD s.ptr false = true
      rw [getD_set_self _ _ _ hptr, hb]; rfl
  · rw [step_open_true s (by rw [hcode, hi]; rfl) hb]
    refine ⟨hcode, hmap, hptr, Or.inr (Or.inr (Or.inl ⟨?_, hb⟩))⟩
    show s.idx_ptr + 1 = 2
    rw [hi]
  · rw [step_plus s (by rw [hcode, hi]; rfl)]
    refine ⟨hcode, hmap, ?_, Or.inr (Or.inr (Or.inr (Or.inl ⟨?_, ?_⟩)))⟩
    · show s.ptr < (s.tape.set s.ptr _).length
      rw [List.length_set]; exact hptr
    · show s.idx_ptr + 1 = 3
      rw [hi]
    · show (s.tape.set s.ptr _).getD s.ptr false = false
      rw [getD_set_self _ _ _ hptr, hb]; rfl
  · rw [step_plus s (by rw [hcode, hi]; rfl)]
    refine ⟨hcode, hmap, ?_, Or.inr (Or.inr (Or.inr (Or.inr ⟨?_, ?_⟩)))⟩
    · show s.ptr < (s.tape.set s.ptr _).length
      rw [List.length_set]; exact hptr
    · show s.idx_ptr + 1 = 4
      rw [hi]
    · show (s.tape.set s.ptr _).getD s.ptr false = true
      rw [getD_set_self _ _ _ hptr, hb]; rfl
  · rw [step_close_true s 1 (by rw [hcode, hi]; rfl) hb (by rw [hi]; exact hmap)]
    exact ⟨hcode, hmap, hptr, Or.inr (Or.inr (Or.inl ⟨rfl, hb⟩))⟩

theorem toggle_iterate (s : State) (h : toggle_inv s) (n : Nat) :
    toggle_inv (interpret.step^[n] s) := by
  induction n generalizing s with
  | zero => exact h
  | succ n ih =>
    rw [Function.iterate_succ_apply]
    exact ih _ (toggle_step s h)

theorem toggle_running (s : State) (h : toggle_inv s) : s.idx_ptr < s.code.length := by
  obtain ⟨hcode, _, _, hcase⟩ := h
  rw [hcode]
  rcases hcase with ⟨hi, _⟩ | ⟨hi, _⟩ | ⟨hi, _⟩ | ⟨hi, _⟩ | ⟨hi, _⟩ <;> rw [hi] <;> decide

theorem iterate_code (s : State) (n : Nat) : (interpret.step^[n] s).code = s.code := by
  induction n generalizing s with
  | zero => rfl
  | succ n ih => rw [Function.iterate_succ_apply, ih, step_code]

theorem init_tape_getD (p : Nat) :
    (List.replicate INITIAL_TAPE_SIZE false).getD p false = false := by
  rw [List.getD_eq_getElem?_getD, List.getElem?_replicate]
  split <;> rfl

theorem init_ptr_lt :
    INITIAL_TAPE_SIZE / 2 < (List.replicate INITIAL_TAPE_SIZE false).length := by
  rw [List.length_replicate]
  decide

/-! ## Claims C7, C9, C10: failures of a run -/

/-- Claim C7: a run ends with an unmatched-bracket diagnostic (`std::exit(1)` in
`build_jump_map`) if and only if the brackets of the program are not balanced;
the state at that exit is the freshly constructed one (no step counted, tape
all zero, cursor and input cursor untouched, no output); and a program of
`N ≥ 1` loop-opens, or of `N ≥ 1` loop-closes, always ends this way. -/
theorem unmatched_bracket_error (code : List Char) (input : List Bool) :
    ((∃ e, interpret code input = .exited e) ↔ balanced code = false) ∧
      (∀ e, interpret code input = .exited e →
        (interpret.run code input).2.step_count = 0 ∧
          (interpret.run code input).2.tape = List.replicate INITIAL_TAPE_SIZE false ∧
          (interpret.run code input).2.ptr = INITIAL_TAPE_SIZE / 2 ∧
          (interpret.run code input).2.input_ptr = 0 ∧
          (interpret.run code input).2.output_bits = []) ∧
      (∀ N, 1 ≤ N → ∃ e, interpret (List.replicate N '[') input = .exited e) ∧
      (∀ N, 1 ≤ N → ∃ e, interpret (List.replicate N ']') input = .exited e) := by
  refine ⟨exited_iff_unbalanced code input, ?_, ?_, ?_⟩
  · intro e he
    cases hres : build_jump_map (State.init code input) with
    | error es =>
      obtain ⟨m, hm⟩ := build_error_state _ es.2 es.1 hres
      rw [interpret_of_build_error code input es.1 es.2 hres]
      simp only [hm]
      exact ⟨rfl, rfl, rfl, rfl, rfl⟩
    | ok s =>
      rw [interpret, interpret_of_build_ok code input s hres] at he
      rcases loop_outcome _ s rfl with h | ⟨out, h⟩ <;> rw [h] at he <;> simp at he
  · intro N hN
    exact (exited_iff_unbalanced _ input).mpr (balanced_replicate_open N hN)
  · intro N hN
    exact (exited_iff_unbalanced _ input).mpr (balanced_replicate_close N hN)

/-- Witness of `unmatched_bracket_error`: three loop-opens, with the input bits
`[true]`. -/
theorem unmatched_bracket_error_witness :
    ∃ e, interpret (List.replicate 3 '[') [true] = .exited e :=
  (unmatched_bracket_error (List.replicate 3 '[') [true]).2.2.1 3 (by decide)

/-- Claim C9: for a program with balanced brackets `interpret` is a total
function that either throws the execution-limit error or returns; it throws if
and only if after `MAX_EXECUTION_STEPS` = 10,000,000 executed instructions the
instruction pointer is still inside the program; and a run whose instruction
pointer has left the program after `n ≤ MAX_EXECUTION_STEPS` instructions
(`n = MAX_EXECUTION_STEPS` included) returns the output accumulated then. -/
theorem execution_limit (code : List Char) (input : List Bool) (hb : balanced code = true) :
    ∃ s0, build_jump_map (State.init code input) = .ok s0 ∧
      (interpret code input = .thrown ↔
        (interpret.step^[MAX_EXECUTION_STEPS] s0).idx_ptr < code.length) ∧
      (∀ n, n ≤ MAX_EXECUTION_STEPS → ¬ (interpret.step^[n] s0).idx_ptr < code.length →
        interpret code input = .returned (interpret.step^[n] s0).output_bits) ∧
      (interpret code input = .thrown ∨ ∃ out, interpret code input = .returned out) := by
  obtain ⟨s0, hs0⟩ := (build_ok_iff_balanced code input).mpr hb
  obtain ⟨m, _, hm⟩ := scan_of_build_ok _ _ hs0
  have hcode : s0.code = code := by rw [hm]; rfl
  have hsc : s0.step_count = 0 := by rw [hm]; rfl
  have hrun : interpret code input = (interpret.loop s0).1 := by
    rw [interpret, interpret_of_build_ok code input s0 hs0]
  have hret : ∀ n, n ≤ MAX_EXECUTION_STEPS → ¬ (interpret.step^[n] s0).idx_ptr < code.length →
      interpret code input = .returned (interpret.step^[n] s0).output_bits := by
    intro n hn hhalt
    rw [hrun, loop_returns n s0 (by omega) (by rw [iterate_code, hcode]; exact hhalt)]
  refine ⟨s0, hs0, ⟨?_, ?_⟩, hret, ?_⟩
  · intro hthrown
    by_contra hhalt
    rw [hret MAX_EXECUTION_STEPS (Nat.le_refl _) hhalt] at hthrown
    exact absurd hthrown (by simp)
  · intro hin
    rw [hrun, loop_throws MAX_EXECUTION_STEPS s0 (by omega)
      (by rw [iterate_code, hcode]; exact hin)]
  · rw [hrun]
    exact loop_outcome _ s0 rfl

/-- Witness of `execution_limit` at the program `+[+];` with the input `[true]`. -/
theorem execution_limit_witness :
    balanced "+[+];".toList = true ∧
      ∃ s0, build_jump_map (State.init "+[+];".toList [true]) = .ok s0 ∧
        (interpret "+[+];".toList [true] = .thrown ↔
          (interpret.step^[MAX_EXECUTION_STEPS] s0).idx_ptr < "+[+];".toList.length) ∧
        (∀ n, n ≤ MAX_EXECUTION_STEPS →
          ¬ (interpret.step^[n] s0).idx_ptr < "+[+];".toList.length →
          interpret "+[+];".toList [true] = .returned (interpret.step^[n] s0).output_bits) ∧
        (interpret "+[+];".toList [true] = .thrown ∨
          ∃ out, interpret "+[+];".toList [true] = .returned out) :=
  ⟨by decide, execution_limit "+[+];".toList [true] (by decide)⟩

/-- Claim C10: for every input the program `+[++]` ends with the
execution-limit error: `interpret` throws instead of returning an output, and
it does so in the round that would execute instruction number 10,000,001. -/
theorem toggling_loop_throws (input : List Bool) :
    interpret "+[++]".toList input = .thrown ∧
      (interpret.run "+[++]".toList input).2.step_count = MAX_EXECUTION_STEPS + 1 := by
  have hs0 : build_jump_map (State.init "+[++]".toList input) =
      .ok { State.init "+[++]".toList input with loop_map := [(4, 1), (1, 4)] } := rfl
  have hinv : toggle_inv { State.init "+[++]".toList input with loop_map := [(4, 1), (1, 4)] } :=
    ⟨rfl, rfl, init_ptr_lt, Or.inl ⟨rfl, init_tape_getD _⟩⟩
  have hrun := toggle_running _ (toggle_iterate _ hinv MAX_EXECUTION_STEPS)
  have hloop := loop_throws MAX_EXECUTION_STEPS _ (Nat.zero_add _) hrun
  rw [interpret, interpret_of_build_ok _ _ _ hs0, hloop]
  exact ⟨rfl, rfl⟩

/-! ## Claim C11: exit status -/

theorem toggle_thrown (input : List Bool) : interpret "+[++]".toList input = .thrown := by
  have hs0 : build_jump_map (State.init "+[++]".toList input) =
      .ok { State.init "+[++]".toList input with loop_map := [(4, 1), (1, 4)] } := rfl
  have hinv : toggle_inv { State.init "+[++]".toList input with loop_map := [(4, 1), (1, 4)] } :=
    ⟨rfl, rfl, init_ptr_lt, Or.inl ⟨rfl, init_tape_getD _⟩⟩
  have hrun := toggle_running _ (toggle_iterate _ hinv MAX_EXECUTION_STEPS)
  have hloop := loop_throws MAX_EXECUTION_STEPS _ (Nat.zero_add _) hrun
  rw [interpret, interpret_of_build_ok _ _ _ hs0]
  exact congrArg Prod.fst hloop

theorem main_no_file (argv : List (List Nat)) : main argv none = 1 := by
  unfold main
  split <;> rfl

theorem main_of_exited (argv : List (List Nat)) (code : List Char) (e : BracketError)
    (hlen : argv.length = 3 ∨ argv.length = 4)
    (he : interpret code (to_bit_stream (argv.getD 2 [])) = .exited e) :
    main argv (some code) = 1 := by
  unfold main
  have : ¬ (argv.length < 3 ∨ argv.length > 4) := by omega
  simp only [this, if_false, he]

theorem main_of_thrown (argv : List (List Nat)) (code : List Char)
    (hlen : argv.length = 3 ∨ argv.length = 4)
    (he : interpret code (to_bit_stream (argv.getD 2 [])) = .thrown) :
    main argv (some code) = 0 := by
  unfold main
  have : ¬ (argv.length < 3 ∨ argv.length > 4) := by omega
  simp only [this, if_false, he]

/-- Claim C11, evaluated on the code: when the program file cannot be opened
`main` returns 1, and when bracket matching fails the process ends with status
1; but with a readable program file holding `+[++]` and any three arguments the
run exceeds the step limit and `main` returns 0. -/
theorem main_exit_status (a0 a1 a2 : List Nat) :
    (∀ argv, main argv none = 1) ∧
      (∀ argv code e, argv.length = 3 ∨ argv.length = 4 →
        interpret code (to_bit_stream (argv.getD 2 [])) = .exited e →
        main argv (some code) = 1) ∧
      interpret "+[++]".toList (to_bit_stream a2) = .thrown ∧
      main [a0, a1, a2] (some "+[++]".toList) = 0 :=
  ⟨main_no_file, main_of_exited, toggle_thrown _,
    main_of_thrown [a0, a1, a2] _ (Or.inl rfl) (toggle_thrown _)⟩

/-! ## Single-step lemmas for the remaining commands -/

theorem step_output (s : State) (h : s.code[s.idx_ptr]? = some ';') :
    interpret.step s =
      { s with
        output_bits := s.output_bits ++ [s.tape.getD s.ptr false]
        step_count := s.step_count + 1
        idx_ptr := s.idx_ptr + 1 } := by
  rw [step_of_getElem? s ';' h]
  rfl

theorem step_input_some (s : State) (h : s.code[s.idx_ptr]? = some ',')
    (hin : s.input_ptr < s.input_bits.length) :
    interpret.step s =
      { s with
        tape := s.tape.set s.ptr (s.input_bits.getD s.input_ptr false)
        input_ptr := s.input_ptr + 1
        step_count := s.step_count + 1
        idx_ptr := s.idx_ptr + 1 } := by
  rw [step_of_getElem? s ',' h]
  have hd : dispatch ',' { s with step_count := s.step_count + 1 } =
      { s with
        tape := s.tape.set s.ptr (s.input_bits.getD s.input_ptr false)
        input_ptr := s.input_ptr + 1
        step_count := s.step_count + 1 } := by
    show InputCmd _ = _
    unfold InputCmd
    simp only [hin, if_true]
  rw [hd]

theorem step_input_none (s : State) (h : s.code[s.idx_ptr]? = some ',')
    (hin : ¬ s.input_ptr < s.input_bits.length) :
    interpret.step s =
      { s with
        tape := s.tape.set s.ptr false
        step_count := s.step_count + 1
        idx_ptr := s.idx_ptr + 1 } := by
  rw [step_of_getElem? s ',' h]
  have hd : dispatch ',' { s with step_count := s.step_count + 1 } =
      { s with tape := s.tape.set s.ptr false, step_count := s.step_count + 1 } := by
    show InputCmd _ = _
    unfold InputCmd
    simp only [hin, if_false]
  rw [hd]

theorem step_open_false (s : State) (v : Nat) (h : s.code[s.idx_ptr]? = some '[')
    (hb : s.tape.getD s.ptr false = false) (hl : s.loop_map.lookup s.idx_ptr = some v) :
    interpret.step s = { s with step_count := s.step_count + 1, idx_ptr := v + 1 } := by
  rw [step_of_getElem? s '[' h]
  have hd : dispatch '[' { s with step_count := s.step_count + 1 } =
      { s with step_count := s.step_count + 1, idx_ptr := v } := by
    show JumpForwardCmd _ = _
    unfold JumpForwardCmd
    simp only [hb, Bool.not_false, if_true, map_index_of_lookup _ _ _ hl]
  rw [hd]

theorem step_close_false (s : State) (h : s.code[s.idx_ptr]? = some ']')
    (hb : s.tape.getD s.ptr false = false) :
    interpret.step s = { s with step_count := s.step_count + 1, idx_ptr := s.idx_ptr + 1 } := by
  rw [step_of_getElem? s ']' h]
  have hd : dispatch ']' { s with step_count := s.step_count + 1 } =
      { s with step_count := s.step_count + 1 } := by
    show JumpBackwardCmd _ = _
    unfold JumpBackwardCmd
    simp only [hb, Bool.false_eq_true, if_false]
  rw [hd]

theorem step_other (s : State) (c : Char) (h : s.code[s.idx_ptr]? = some c)
    (hc : command_map c = none) :
    interpret.step s = { s with step_count := s.step_count + 1, idx_ptr := s.idx_ptr + 1 } := by
  rw [step_of_getElem? s c h]
  have hd : dispatch c { s with step_count := s.step_count + 1 } =
      { s with step_count := s.step_count + 1 } := by
    unfold dispatch
    rw [hc]
  rw [hd]

theorem run_returns (code : List Char) (input : List Bool) (s0 sn : State) (n : Nat)
    (hb : build_jump_map (State.init code input) = .ok s0) (hn : n ≤ MAX_EXECUTION_STEPS)
    (hit : interpret.step^[n] s0 = sn) (hhalt : ¬ sn.idx_ptr < sn.code.length) :
    interpret.run code input = (.returned sn.output_bits, sn) := by
  obtain ⟨m, _, hm⟩ := scan_of_build_ok _ _ hb
  have hsc : s0.step_count = 0 := by rw [hm]; rfl
  subst hit
  rw [interpret_of_build_ok code input s0 hb, loop_returns n s0 (by omega) hhalt]

/-! ## Claim C12 -/

theorem flip_output_steps (s : State) (hcode : s.code = "+;".toList) (hidx : s.idx_ptr = 0)
    (hptr : s.ptr < s.tape.length) (hbit : s.tape.getD s.ptr false = false)
    (hout : s.output_bits = []) :
    interpret.step^[2] s =
      { s with
        tape := s.tape.set s.ptr true
        output_bits := [true]
        step_count := s.step_count + 2
        idx_ptr := 2 } := by
  rw [Function.iterate_succ_apply, Function.iterate_succ_apply, Function.iterate_zero_apply,
    step_plus s (by rw [hcode, hidx]; rfl),
    step_output _ (by show s.code[s.idx_ptr + 1]? = _; rw [hcode, hidx]; rfl)]
  show ({ s with
    tape := s.tape.set s.ptr (!(s.tape.getD s.ptr false))
    output_bits := s.output_bits ++ [(s.tape.set s.ptr (!(s.tape.getD s.ptr false))).getD s.ptr false]
    step_count := s.step_count + 1 + 1
    idx_ptr := s.idx_ptr + 1 + 1 } : State) = _
  rw [getD_set_self _ _ _ hptr, hbit, hout, hidx]
  rfl

/-- Claim C12: for every input bit sequence, the empty one included,
`interpret` on the program `+;` returns exactly the one-element output `[1]`. -/
theorem flip_then_output (input : List Bool) :
    interpret "+;".toList input = .returned [true] := by
  have hb : build_jump_map (State.init "+;".toList input) =
      .ok { State.init "+;".toList input with loop_map := [] } := rfl
  have hit := flip_output_steps { State.init "+;".toList input with loop_map := [] } rfl rfl
    init_ptr_lt (init_tape_getD _) rfl
  rw [interpret, run_returns _ _ _ _ 2 hb (by decide) hit (Nat.lt_irrefl 2)]

/-! ## Claim C13 -/

theorem read_write_copies_succ (n : Nat) :
    read_write_copies (n + 1) = ',' :: ';' :: read_write_copies n := rfl

theorem length_read_write_copies (n : Nat) : (read_write_copies n).length = 2 * n := by
  induction n with
  | zero => rfl
  | succ n ih => rw [read_write_copies_succ, List.length_cons, List.length_cons, ih]; omega

theorem getElem?_read_write_copies (n k : Nat) (hk : k < n) :
    (read_write_copies n)[2 * k]? = some ',' ∧ (read_write_copies n)[2 * k + 1]? = some ';' := by
  induction n generalizing k with
  | zero => omega
  | succ n ih =>
    rw [read_write_copies_succ]
    cases k with
    | zero => exact ⟨rfl, by simp⟩
    | succ k =>
      have := ih k (by omega)
      rw [show 2 * (k + 1) = 2 * k + 1 + 1 by omega, List.getElem?_cons_succ,
        List.getElem?_cons_succ, List.getElem?_cons_succ, List.getElem?_cons_succ]
      exact this

theorem scan_no_brackets (cs : List Char) (h : ∀ c ∈ cs, c ≠ '[' ∧ c ≠ ']') :
    ∀ (i : Nat) (st : List Nat) (m : List (Nat × Nat)),
      build_jump_map.scan cs i st m = .ok (st, m) := by
  induction cs with
  | nil => intro i st m; rfl
  | cons c cs ih =>
    intro i st m
    have hc := h c (List.mem_cons_self _ _)
    unfold build_jump_map.scan
    rw [if_neg hc.1, if_neg hc.2]
    exact ih (fun d hd => h d (List.mem_cons_of_mem _ hd)) _ _ _

theorem read_write_copies_no_brackets (n : Nat) :
    ∀ c ∈ read_write_copies n, c ≠ '[' ∧ c ≠ ']' := by
  induction n with
  | zero => intro c hc; simp [read_write_copies] at hc
  | succ n ih =>
    intro c hc
    rw [read_write_copies_succ] at hc
    rcases List.mem_cons.mp hc with rfl | hc
    · decide
    · rcases List.mem_cons.mp hc with rfl | hc
      · decide
      · exact ih c hc

theorem echo_two_steps (n : Nat) (input : List Bool) (k : Nat) (s : State)
    (h : echo_inv n input k s) (hk : k < n) :
    echo_inv n input (k + 1) (interpret.step^[2] s) := by
  obtain ⟨hcode, hidx, hin, hip, hout, hptr, hsc⟩ := h
  obtain ⟨hc0, hc1⟩ := getElem?_read_write_copies n k hk
  have h0 : s.code[s.idx_ptr]? = some ',' := by rw [hcode, hidx]; exact hc0
  have h1 : s.code[s.idx_ptr + 1]? = some ';' := by rw [hcode, hidx]; exact hc1
  rw [Function.iterate_succ_apply, Function.iterate_succ_apply, Function.iterate_zero_apply]
  have hrange : (List.range (k + 1)).map (fun j => input.getD j false) =
      (List.range k).map (fun j => input.getD j false) ++ [input.getD k false] := by
    rw [List.range_succ, List.map_append]; rfl
  by_cases hlt : k < input.length
  · have hin2 : s.input_ptr < s.input_bits.length := by rw [hip, hin]; omega
    rw [step_input_some s h0 hin2, step_output _ h1]
    refine ⟨hcode, ?_, hin, ?_, ?_, ?_, ?_⟩
    · show s.idx_ptr + 1 + 1 = 2 * (k + 1)
      omega
    · show s.input_ptr + 1 = min (k + 1) input.length
      omega
    · show s.output_bits ++ [(s.tape.set s.ptr _).getD s.ptr false] = _
      rw [getD_set_self _ _ _ hptr, hout, hrange, hin, hip, Nat.min_eq_left (Nat.le_of_lt hlt)]
    · show s.ptr < (s.tape.set s.ptr _).length
      rw [List.length_set]; exact hptr
    · show s.step_count + 1 + 1 = 2 * (k + 1)
      omega
  · have hin2 : ¬ s.input_ptr < s.input_bits.length := by rw [hip, hin]; omega
    rw [step_input_none s h0 hin2, step_output _ h1]
    refine ⟨hcode, ?_, hin, ?_, ?_, ?_, ?_⟩
    · show s.idx_ptr + 1 + 1 = 2 * (k + 1)
      omega
    · show s.input_ptr = min (k + 1) input.length
      omega
    · show s.output_bits ++ [(s.tape.set s.ptr _).getD s.ptr false] = _
      rw [getD_set_self _ _ _ hptr, hout, hrange,
        List.getD_eq_default _ _ (Nat.le_of_not_lt hlt)]
    · show s.ptr < (s.tape.set s.ptr _).length
      rw [List.length_set]; exact hptr
    · show s.step_count + 1 + 1 = 2 * (k + 1)
      omega

theorem echo_iterate (n : Nat) (input : List Bool) (s : State) (h : echo_inv n input 0 s)
    (k : Nat) (hk : k ≤ n) : echo_inv n input k (interpret.step^[2 * k] s) := by
  induction k with
  | zero => exact h
  | succ k ih =>
    rw [show 2 * (k + 1) = 2 + 2 * k by omega, Function.iterate_add_apply]
    exact echo_two_steps n input k _ (ih (by omega)) (by omega)

theorem echo_returns (n : Nat) (input : List Bool) (hn : 2 * n ≤ MAX_EXECUTION_STEPS) :
    interpret (read_write_copies n) input =
      .returned ((List.range n).map (fun j => input.getD j false)) := by
  have hscan := scan_no_brackets _ (read_write_copies_no_brackets n) 0 [] []
  have hb : build_jump_map (State.init (read_write_copies n) input) =
      .ok { State.init (read_write_copies n) input with loop_map := [] } :=
    build_ok_of_scan (State.init (read_write_copies n) input) [] hscan
  have h0 : echo_inv n input 0 { State.init (read_write_copies n) input with loop_map := [] } :=
    ⟨rfl, rfl, rfl, by simp [State.init], rfl, init_ptr_lt, rfl⟩
  obtain ⟨hcode, hidx, _, _, hout, _, _⟩ := echo_iterate n input _ h0 n (Nat.le_refl n)
  have hhalt : ¬ (interpret.step^[2 * n] { State.init (read_write_copies n) input with
      loop_map := [] }).idx_ptr < (interpret.step^[2 * n] { State.init (read_write_copies n)
      input with loop_map := [] }).code.length := by
    rw [hcode, hidx, length_read_write_copies]; omega
  rw [interpret, run_returns _ _ _ _ (2 * n) hb hn rfl hhalt, hout]

/-- Claim C13: for every `n` with `2 * n ≤ 10,000,000` and every input, the
program made of `n` copies of `,;` returns exactly `n` bits, bit `k` being
input bit `k` when `k` is below the input length and 0 otherwise; and for
`n = 1` with the input `to_bit_stream` of the single byte 1 the output is the
single bit 1. -/
theorem read_write_copies_output (n : Nat) (input : List Bool)
    (hn : 2 * n ≤ MAX_EXECUTION_STEPS) :
    (∃ out, interpret (read_write_copies n) input = .returned out ∧ out.length = n ∧
      ∀ k, k < n → out[k]? = some (if h : k < input.length then input[k] else false)) ∧
      interpret ",;".toList (to_bit_stream [1]) = .returned [true] := by
  refine ⟨⟨_, echo_returns n input hn, by simp, ?_⟩, ?_⟩
  · intro k hk
    rw [List.getElem?_map, List.getElem?_range hk]
    by_cases h : k < input.length
    · simp only [h, dite_true, Option.map_some', List.getD_eq_getElem _ _ h]
    · simp only [h, dite_false, Option.map_some', List.getD_eq_default _ _ (Nat.le_of_not_lt h)]
  · exact echo_returns 1 (to_bit_stream [1]) (by decide)

/-- Witness of `read_write_copies_output`: two copies on the one-bit input
`[true]`. -/
theorem read_write_copies_output_witness :
    2 * 2 ≤ MAX_EXECUTION_STEPS ∧
      (∃ out, interpret (read_write_copies 2) [true] = .returned out ∧ out.length = 2 ∧
        ∀ k, k < 2 → out[k]? = some (if h : k < [true].length then [true][k] else false)) ∧
      interpret ",;".toList (to_bit_stream [1]) = .returned [true] :=
  ⟨by decide, read_write_copies_output 2 [true] (by decide)⟩

/-! ## Claim C14 -/

theorem scan_cons (c : Char) (cs : List Char) (i : Nat) (stack : List Nat)
    (m : List (Nat × Nat)) :
    build_jump_map.scan (c :: cs) i stack m =
      if c = '[' then build_jump_map.scan cs (i + 1) (i :: stack) m
      else if c = ']' then
        match stack with
        | [] => .error (.unmatched_close i, m)
        | start :: rest =>
          build_jump_map.scan cs (i + 1) rest (map_assign (map_assign m start i) i start)
      else build_jump_map.scan cs (i + 1) stack m := rfl

theorem scan_balanced_segment (cs : List Char) :
    ∀ (pre base : List Nat) (i : Nat) (m : List (Nat × Nat)) (rest : List Char),
      balanced.go cs pre.length = true →
      ∃ m2, build_jump_map.scan (cs ++ rest) i (pre ++ base) m =
        build_jump_map.scan rest (i + cs.length) base m2 := by
  induction cs with
  | nil =>
    intro pre base i m rest h
    cases pre with
    | nil => exact ⟨m, rfl⟩
    | cons p ps => simp [balanced.go] at h
  | cons c cs ih =>
    intro pre base i m rest h
    unfold balanced.go at h
    rw [List.cons_append, List.length_cons,
      show i + (cs.length + 1) = i + 1 + cs.length by omega, scan_cons]
    split
    · rename_i hc
      rw [if_pos hc] at h
      exact ih (i :: pre) base (i + 1) m rest h
    · rename_i hc
      rw [if_neg hc] at h
      split
      · rename_i hc2
        rw [if_pos hc2] at h
        cases pre with
        | nil => simp at h
        | cons p ps => exact ih ps base (i + 1) _ rest h
      · rename_i hc2
        rw [if_neg hc2] at h
        exact ih pre base (i + 1) m rest h

theorem scan_wrapped (body : List Char) (hb : balanced body = true) :
    ∃ m, build_jump_map.scan (['['] ++ body ++ [']']) 0 [] [] = .ok ([], m) ∧
      m.lookup 0 = some (body.length + 1) := by
  obtain ⟨m2, hm2⟩ := scan_balanced_segment body [] [0] 1 [] [']'] hb
  refine ⟨map_assign (map_assign m2 0 (1 + body.length)) (1 + body.length) 0, ?_, ?_⟩
  · have h1 : build_jump_map.scan (['['] ++ body ++ [']']) 0 [] [] =
        build_jump_map.scan (body ++ [']']) 1 [0] [] := by
      simp [build_jump_map.scan]
    rw [h1]
    rw [List.nil_append] at hm2
    rw [hm2]
    simp [build_jump_map.scan]
  · rw [lookup_assign, lookup_assign]
    have : ¬ (0 = 1 + body.length) := by omega
    simp only [this, if_false, if_true]
    congr 1
    omega

theorem skip_loop_run (body : List Char) (input : List Bool) (hb : balanced body = true) :
    ∃ m, interpret.run (['['] ++ body ++ [']']) input =
      (.returned [],
        { State.init (['['] ++ body ++ [']']) input with
          loop_map := m
          step_count := 1
          idx_ptr := body.length + 1 + 1 }) := by
  obtain ⟨m, hscan, hlook⟩ := scan_wrapped body hb
  have hbuild : build_jump_map (State.init (['['] ++ body ++ [']']) input) =
      .ok { State.init (['['] ++ body ++ [']']) input with loop_map := m } :=
    build_ok_of_scan (State.init (['['] ++ body ++ [']']) input) m hscan
  have hstep : interpret.step^[1] { State.init (['['] ++ body ++ [']']) input with
      loop_map := m } =
      { State.init (['['] ++ body ++ [']']) input with
        loop_map := m
        step_count := 1
        idx_ptr := body.length + 1 + 1 } := by
    rw [Function.iterate_succ_apply, Function.iterate_zero_apply,
      step_open_false { State.init (['['] ++ body ++ [']']) input with loop_map := m }
        (body.length + 1) (by simp [State.init]) (init_tape_getD _) hlook]
    rfl
  have hhalt : ¬ body.length + 1 + 1 < (['['] ++ body ++ [']']).length := by simp
  exact ⟨m, run_returns _ _ _ _ 1 hbuild (by decide) hstep hhalt⟩

/-- Claim C14: for a program `[` + body + `]` whose body has balanced brackets
and for every input, the run on the fresh all-zero tape returns the empty
output after exactly one executed instruction: the loop-open sees 0, the body
is skipped and the instruction pointer ends just past the matching loop-close,
at the end of the program, with the tape untouched; `[+]` is the case
body = `+`. -/
theorem skipped_loop (body : List Char) (input : List Bool) (hb : balanced body = true) :
    (interpret (['['] ++ body ++ [']']) input = .returned [] ∧
      (interpret.run (['['] ++ body ++ [']']) input).2.step_count = 1 ∧
      (interpret.run (['['] ++ body ++ [']']) input).2.idx_ptr =
        (['['] ++ body ++ [']']).length ∧
      (interpret.run (['['] ++ body ++ [']']) input).2.tape =
        List.replicate INITIAL_TAPE_SIZE false ∧
      (interpret.run (['['] ++ body ++ [']']) input).2.ptr = INITIAL_TAPE_SIZE / 2) ∧
      interpret "[+]".toList input = .returned [] := by
  obtain ⟨m, hm⟩ := skip_loop_run body input hb
  obtain ⟨m1, hm1⟩ := skip_loop_run ['+'] input rfl
  refine ⟨⟨?_, ?_, ?_, ?_, ?_⟩, ?_⟩
  · rw [interpret, hm]
  · rw [hm]
  · rw [hm]
    show body.length + 1 + 1 = (['['] ++ body ++ [']']).length
    simp
  · rw [hm]; rfl
  · rw [hm]; rfl
  · have hprog : "[+]".toList = ['['] ++ ['+'] ++ [']'] := rfl
    rw [hprog, interpret, hm1]

/-- Witness of `skipped_loop` at the body `+[>].`, with the input `[true]`. -/
theorem skipped_loop_witness :
    balanced "+[>].".toList = true ∧
      (interpret (['['] ++ "+[>].".toList ++ [']']) [true] = .returned [] ∧
        (interpret.run (['['] ++ "+[>].".toList ++ [']']) [true]).2.step_count = 1 ∧
        (interpret.run (['['] ++ "+[>].".toList ++ [']']) [true]).2.idx_ptr =
          (['['] ++ "+[>].".toList ++ [']']).length ∧
        (interpret.run (['['] ++ "+[>].".toList ++ [']']) [true]).2.tape =
          List.replicate INITIAL_TAPE_SIZE false ∧
        (interpret.run (['['] ++ "+[>].".toList ++ [']']) [true]).2.ptr =
          INITIAL_TAPE_SIZE / 2) ∧
      interpret "[+]".toList [true] = .returned [] :=
  ⟨by decide, skipped_loop "+[>].".toList [true] (by decide)⟩

/-! ## Claim C15 -/

theorem single_pass_steps (s : State) (hcode : s.code = "+[+]".toList) (hidx : s.idx_ptr = 0)
    (hptr : s.ptr < s.tape.length) (hbit : s.tape.getD s.ptr false = false) :
    interpret.step^[4] s =
      { s with
        tape := (s.tape.set s.ptr true).set s.ptr false
        step_count := s.step_count + 4
        idx_ptr := 4 } := by
  have hptr1 : s.ptr < (s.tape.set s.ptr true).length := by rw [List.length_set]; exact hptr
  have e1 : interpret.step s =
      { s with tape := s.tape.set s.ptr true, step_count := s.step_count + 1, idx_ptr := 1 } := by
    rw [step_plus s (by rw [hcode, hidx]; rfl), hbit, hidx]
    rfl
  have e2 : interpret.step { s with
        tape := s.tape.set s.ptr true, step_count := s.step_count + 1, idx_ptr := 1 } =
      { s with tape := s.tape.set s.ptr true, step_count := s.step_count + 2, idx_ptr := 2 } := by
    rw [step_open_true _ (by show s.code[1]? = _; rw [hcode]; rfl)
      (getD_set_self _ _ _ hptr)]
  have e3 : interpret.step { s with
        tape := s.tape.set s.ptr true, step_count := s.step_count + 2, idx_ptr := 2 } =
      { s with
        tape := (s.tape.set s.ptr true).set s.ptr false
        step_count := s.step_count + 3
        idx_ptr := 3 } := by
    rw [step_plus _ (by show s.code[2]? = _; rw [hcode]; rfl)]
    show ({ s with
      tape := (s.tape.set s.ptr true).set s.ptr (!((s.tape.set s.ptr true).getD s.ptr false))
      step_count := s.step_count + 2 + 1
      idx_ptr := 2 + 1 } : State) = _
    rw [getD_set_self _ _ _ hptr]
    rfl
  have e4 : interpret.step { s with
        tape := (s.tape.set s.ptr true).set s.ptr false
        step_count := s.step_count + 3
        idx_ptr := 3 } =
      { s with
        tape := (s.tape.set s.ptr true).set s.ptr false
        step_count := s.step_count + 4
        idx_ptr := 4 } := by
    rw [step_close_false _ (by show s.code[3]? = _; rw [hcode]; rfl)
      (getD_set_self _ _ _ hptr1)]
  rw [Function.iterate_succ_apply, Function.iterate_succ_apply, Function.iterate_succ_apply,
    Function.iterate_succ_apply, Function.iterate_zero_apply, e1, e2, e3, e4]

/-- Claim C15: for every input, the run of `+[+]` returns the empty output after
exactly 4 executed instructions, with the instruction pointer at the end of
the program and the bit under the cursor equal to 0. -/
theorem single_pass_loop (input : List Bool) :
    interpret "+[+]".toList input = .returned [] ∧
      (interpret.run "+[+]".toList input).2.step_count = 4 ∧
      (interpret.run "+[+]".toList input).2.idx_ptr = 4 ∧
      (interpret.run "+[+]".toList input).2.tape.getD
        (interpret.run "+[+]".toList input).2.ptr false = false := by
  have hb : build_jump_map (State.init "+[+]".toList input) =
      .ok { State.init "+[+]".toList input with loop_map := [(3, 1), (1, 3)] } := rfl
  have hit := single_pass_steps { State.init "+[+]".toList input with
    loop_map := [(3, 1), (1, 3)] } rfl rfl init_ptr_lt (init_tape_getD _)
  have hptr1 : INITIAL_TAPE_SIZE / 2 <
      ((List.replicate INITIAL_TAPE_SIZE false).set (INITIAL_TAPE_SIZE / 2) true).length := by
    rw [List.length_set]; exact init_ptr_lt
  have hrun := run_returns _ _ _ _ 4 hb (by decide) hit (Nat.lt_irrefl 4)
  rw [interpret, hrun]
  exact ⟨rfl, rfl, rfl, getD_set_self _ _ _ hptr1⟩

/-! ## Claims C17 and C18: the tape -/

theorem plus_ptr_lt (s : State) (h : s.ptr < s.tape.length) :
    (PlusCmd s).ptr < (PlusCmd s).tape.length := by
  show s.ptr < (s.tape.set s.ptr _).length
  rw [List.length_set]; exact h

theorem input_ptr_lt (s : State) (h : s.ptr < s.tape.length) :
    (InputCmd s).ptr < (InputCmd s).tape.length := by
  unfold InputCmd
  split
  · show s.ptr < (s.tape.set s.ptr _).length
    rw [List.length_set]; exact h
  · show s.ptr < (s.tape.set s.ptr _).length
    rw [List.length_set]; exact h

theorem right_ptr_lt (s : State) (h : s.ptr < s.tape.length) :
    (MoveRightCmd s).ptr < (MoveRightCmd s).tape.length := by
  unfold MoveRightCmd
  simp only
  split
  · show s.ptr + 1 < (s.tape ++ List.replicate INITIAL_TAPE_SIZE false).length
    rw [List.length_append, List.length_replicate]
    unfold INITIAL_TAPE_SIZE
    omega
  · rename_i hlt
    exact Nat.lt_of_not_le hlt

theorem left_ptr_lt (s : State) (h : s.ptr < s.tape.length) :
    (MoveLeftCmd s).ptr < (MoveLeftCmd s).tape.length := by
  unfold MoveLeftCmd
  simp only
  split
  · show s.ptr + INITIAL_TAPE_SIZE - 1 <
      (List.replicate INITIAL_TAPE_SIZE false ++ s.tape).length
    rw [List.length_append, List.length_replicate]
    unfold INITIAL_TAPE_SIZE
    omega
  · show s.ptr - 1 < s.tape.length
    omega

theorem forward_ptr_lt (s : State) (h : s.ptr < s.tape.length) :
    (JumpForwardCmd s).ptr < (JumpForwardCmd s).tape.length := by
  unfold JumpForwardCmd
  split <;> exact h

theorem backward_ptr_lt (s : State) (h : s.ptr < s.tape.length) :
    (JumpBackwardCmd s).ptr < (JumpBackwardCmd s).tape.length := by
  unfold JumpBackwardCmd
  split <;> exact h

theorem dispatch_ptr_lt (c : Char) (s : State) (h : s.ptr < s.tape.length) :
    (dispatch c s).ptr < (dispatch c s).tape.length := by
  unfold dispatch command_map
  split_ifs
  · exact plus_ptr_lt s h
  · exact input_ptr_lt s h
  · exact h
  · exact right_ptr_lt s h
  · exact left_ptr_lt s h
  · exact forward_ptr_lt s h
  · exact backward_ptr_lt s h
  · exact h

theorem step_ptr_lt (s : State) (h : s.ptr < s.tape.length) :
    (interpret.step s).ptr < (interpret.step s).tape.length := by
  unfold interpret.step
  split
  · exact dispatch_ptr_lt _ { s with step_count := s.step_count + 1 } h
  · exact h

/-- Claim C17: in every state reachable from an initial state (tape of 1024 zero
bits, cursor 512) by executing any sequence of instructions, the cursor is a
valid index into the physical tape, `ptr < tape.size()`. -/
theorem cursor_in_bounds (s : State) (h : Reachable s) : s.ptr < s.tape.length := by
  induction h with
  | init s ht hp =>
    rw [ht, hp]
    exact init_ptr_lt
  | exec c s _ ih => exact dispatch_ptr_lt c s ih
  | round s _ ih => exact step_ptr_lt s ih

/-- Witness of `cursor_in_bounds`: the state after one round of the loop on the
program `<`. -/
theorem cursor_in_bounds_witness :
    Reachable (interpret.step (State.init "<".toList [])) ∧
      (interpret.step (State.init "<".toList [])).ptr <
        (interpret.step (State.init "<".toList [])).tape.length :=
  ⟨Reachable.round _ (Reachable.init _ rfl rfl),
    cursor_in_bounds _ (Reachable.round _ (Reachable.init _ rfl rfl))⟩

/-- Claim C18: for a state whose cursor is at physical position 0, move-left
yields a tape exactly 1024 bits longer, whose first 1024 bits are 0 and whose
bit at `i + 1024` is the old bit at `i`; the cursor ends at 1023, and the
output, the input cursor and the loop map are unchanged. -/
theorem move_left_at_zero (s : State) (h : s.ptr = 0) :
    dispatch '<' s = MoveLeftCmd s ∧
      (MoveLeftCmd s).tape.length = s.tape.length + 1024 ∧
      (∀ i, i < 1024 → (MoveLeftCmd s).tape[i]? = some false) ∧
      (∀ i (hi : i < s.tape.length), (MoveLeftCmd s).tape[i + 1024]? = some s.tape[i]) ∧
      (MoveLeftCmd s).ptr = 1023 ∧
      (MoveLeftCmd s).output_bits = s.output_bits ∧
      (MoveLeftCmd s).input_ptr = s.input_ptr ∧
      (MoveLeftCmd s).loop_map = s.loop_map := by
  have htape : (MoveLeftCmd s).tape = List.replicate 1024 false ++ s.tape := by
    unfold MoveLeftCmd
    simp only [h, if_true]
    rfl
  have hptr : (MoveLeftCmd s).ptr = 1023 := by
    unfold MoveLeftCmd
    simp only [h, if_true]
    rfl
  have hrest : (MoveLeftCmd s).output_bits = s.output_bits ∧
      (MoveLeftCmd s).input_ptr = s.input_ptr ∧ (MoveLeftCmd s).loop_map = s.loop_map := by
    simp [MoveLeftCmd, h]
  refine ⟨rfl, ?_, ?_, ?_, hptr, hrest⟩
  · rw [htape, List.length_append, List.length_replicate]; omega
  · intro i hi
    rw [htape, List.getElem?_append_left (by rw [List.length_replicate]; exact hi),
      List.getElem?_replicate, if_pos hi]
  · intro i hi
    rw [htape, List.getElem?_append_right (by rw [List.length_replicate]; omega),
      List.length_replicate, Nat.add_sub_cancel, List.getElem?_eq_getElem hi]

/-- Witness of `move_left_at_zero`: a three-bit tape with the cursor at 0. -/
theorem move_left_at_zero_witness :
    ({ State.init [] [] with tape := [true, false, true], ptr := 0 } : State).ptr = 0 ∧
      (MoveLeftCmd { State.init [] [] with tape := [true, false, true], ptr := 0 }).ptr =
        1023 :=
  ⟨rfl, (move_left_at_zero { State.init [] [] with tape := [true, false, true], ptr := 0 }
    rfl).2.2.2.2.1⟩

/-! ## Claim C20 -/

/-- Claim C20: for a bit sequence `b` of length `n`,
`to_bit_stream (from_bit_stream b)` is `b` followed by `8 * ⌈n / 8⌉ - n` zero
bits, so `b` is a prefix of it. -/
theorem reencode_pads (b : List Bool) :
    to_bit_stream (from_bit_stream b) =
        b ++ List.replicate (8 * ((b.length + 7) / 8) - b.length) false ∧
      b <+: to_bit_stream (from_bit_stream b) := by
  have hlen : (to_bit_stream (from_bit_stream b)).length = 8 * ((b.length + 7) / 8) := by
    rw [length_to_bit_stream, length_from_bit_stream]
  have heq : to_bit_stream (from_bit_stream b) =
      b ++ List.replicate (8 * ((b.length + 7) / 8) - b.length) false := by
    apply ext_getD
    · rw [hlen, List.length_append, List.length_replicate]; omega
    · intro n hn
      rw [hlen] at hn
      rw [getD_reencode b n hn]
      by_cases hlt : n < b.length
      · rw [List.getD_eq_getElem?_getD, List.getD_eq_getElem?_getD,
          List.getElem?_append_left hlt]
      · rw [List.getD_eq_default _ _ (Nat.le_of_not_lt hlt), List.getD_eq_getElem?_getD,
          List.getElem?_append_right (Nat.le_of_not_lt hlt), List.getElem?_replicate]
        split <;> rfl
  exact ⟨heq, ⟨_, heq.symm⟩⟩

/-! ## Claim C16: the growable tape refines the infinite tape -/

theorem rep_read (s : State) (r : RefState) (h : Represents s r) :
    r.tape r.cursor = s.tape.getD s.ptr false := by
  rw [h.tape_eq, h.cursor_eq]
  have h1 : (0 : Int) ≤ (s.ptr : Int) - (s.left_pad : Int) + (s.left_pad : Int) := by omega
  rw [if_pos h1]
  congr 1
  omega

theorem rep_write (s : State) (r : RefState) (h : Represents s r) (v : Bool) (z : Int) :
    Function.update r.tape r.cursor v z =
      if 0 ≤ z + (s.left_pad : Int) then
        (s.tape.set s.ptr v).getD (z + (s.left_pad : Int)).toNat false
      else false := by
  by_cases hz : z = r.cursor
  · subst hz
    rw [Function.update_same, h.cursor_eq]
    have h1 : (0 : Int) ≤ (s.ptr : Int) - (s.left_pad : Int) + (s.left_pad : Int) := by omega
    rw [if_pos h1]
    have h2 : ((s.ptr : Int) - (s.left_pad : Int) + (s.left_pad : Int)).toNat = s.ptr := by omega
    rw [h2, getD_set_self _ _ _ h.in_bounds]
  · rw [Function.update_noteq hz, h.tape_eq]
    by_cases h1 : (0 : Int) ≤ z + (s.left_pad : Int)
    · rw [if_pos h1, if_pos h1, getD_set]
      have h2 : ¬ ((z + (s.left_pad : Int)).toNat = s.ptr ∧ s.ptr < s.tape.length) := by
        rintro ⟨h3, _⟩
        apply hz
        rw [h.cursor_eq]
        omega
      rw [if_neg h2]
    · rw [if_neg h1, if_neg h1]

theorem rep_plus (s : State) (r : RefState) (h : Represents s r) :
    Represents (PlusCmd s)
      { r with tape := Function.update r.tape r.cursor (!(r.tape r.cursor)) } where
  in_bounds := plus_ptr_lt s h.in_bounds
  cursor_eq := h.cursor_eq
  tape_eq := by
    intro z
    rw [rep_read s r h]
    exact rep_write s r h _ z
  idx_eq := h.idx_eq
  input_ptr_eq := h.input_ptr_eq
  step_eq := h.step_eq
  input_eq := h.input_eq
  output_eq := h.output_eq
  code_eq := h.code_eq
  map_eq := h.map_eq

theorem rep_input (s : State) (r : RefState) (h : Represents s r) :
    Represents (InputCmd s)
      (if r.input_ptr < r.input_bits.length then
        { r with
          tape := Function.update r.tape r.cursor (r.input_bits.getD r.input_ptr false)
          input_ptr := r.input_ptr + 1 }
      else
        { r with tape := Function.update r.tape r.cursor false }) := by
  by_cases hin : s.input_ptr < s.input_bits.length
  · have hin2 : r.input_ptr < r.input_bits.length := by
      rw [h.input_ptr_eq, h.input_eq]; exact hin
    rw [if_pos hin2]
    unfold InputCmd
    rw [if_pos hin]
    exact
      { in_bounds := by
          show s.ptr < (s.tape.set s.ptr _).length
          rw [List.length_set]; exact h.in_bounds
        cursor_eq := h.cursor_eq
        tape_eq := by
          intro z
          show Function.update r.tape r.cursor (r.input_bits.getD r.input_ptr false) z = _
          rw [h.input_ptr_eq, h.input_eq]
          exact rep_write s r h _ z
        idx_eq := h.idx_eq
        input_ptr_eq := by
          show r.input_ptr + 1 = s.input_ptr + 1
          rw [h.input_ptr_eq]
        step_eq := h.step_eq
        input_eq := h.input_eq
        output_eq := h.output_eq
        code_eq := h.code_eq
        map_eq := h.map_eq }
  · have hin2 : ¬ r.input_ptr < r.input_bits.length := by
      rw [h.input_ptr_eq, h.input_eq]; exact hin
    rw [if_neg hin2]
    unfold InputCmd
    rw [if_neg hin]
    exact
      { in_bounds := by
          show s.ptr < (s.tape.set s.ptr _).length
          rw [List.length_set]; exact h.in_bounds
        cursor_eq := h.cursor_eq
        tape_eq := fun z => rep_write s r h _ z
        idx_eq := h.idx_eq
        input_ptr_eq := h.input_ptr_eq
        step_eq := h.step_eq
        input_eq := h.input_eq
        output_eq := h.output_eq
        code_eq := h.code_eq
        map_eq := h.map_eq }

theorem rep_output (s : State) (r : RefState) (h : Represents s r) :
    Represents (OutputCmd s) { r with output_bits := r.output_bits ++ [r.tape r.cursor] } where
  in_bounds := h.in_bounds
  cursor_eq := h.cursor_eq
  tape_eq := h.tape_eq
  idx_eq := h.idx_eq
  input_ptr_eq := h.input_ptr_eq
  step_eq := h.step_eq
  input_eq := h.input_eq
  output_eq := by
    show r.output_bits ++ [r.tape r.cursor] = s.output_bits ++ [s.tape.getD s.ptr false]
    rw [rep_read s r h, h.output_eq]
  code_eq := h.code_eq
  map_eq := h.map_eq

theorem getD_append_zeros (t : List Bool) (n i : Nat) :
    (t ++ List.replicate n false).getD i false = t.getD i false := by
  by_cases hi : i < t.length
  · rw [List.getD_eq_getElem?_getD, List.getD_eq_getElem?_getD, List.getElem?_append_left hi]
  · rw [List.getD_eq_default _ _ (Nat.le_of_not_lt hi), List.getD_eq_getElem?_getD,
      List.getElem?_append_right (Nat.le_of_not_lt hi), List.getElem?_replicate]
    split <;> rfl

theorem getD_zeros_append (t : List Bool) (n i : Nat) :
    (List.replicate n false ++ t).getD i false = if i < n then false else t.getD (i - n) false := by
  by_cases hi : i < n
  · rw [if_pos hi, List.getD_eq_getElem?_getD,
      List.getElem?_append_left (by rw [List.length_replicate]; exact hi),
      List.getElem?_replicate, if_pos hi]
    rfl
  · rw [if_neg hi, List.getD_eq_getElem?_getD,
      List.getElem?_append_right (by rw [List.length_replicate]; omega),
      List.length_replicate, ← List.getD_eq_getElem?_getD]

theorem rep_right (s : State) (r : RefState) (h : Represents s r) :
    Represents (MoveRightCmd s) { r with cursor := r.cursor + 1 } := by
  have hb := right_ptr_lt s h.in_bounds
  have hc : r.cursor + 1 = ((s.ptr + 1 : Nat) : Int) - (s.left_pad : Int) := by
    rw [h.cursor_eq]; omega
  unfold MoveRightCmd at hb ⊢
  simp only at hb ⊢
  split
  · rename_i hge
    rw [if_pos hge] at hb
    exact
      { in_bounds := hb
        cursor_eq := hc
        tape_eq := by
          intro z
          show r.tape z = if 0 ≤ z + (s.left_pad : Int) then
            (s.tape ++ List.replicate INITIAL_TAPE_SIZE false).getD
              (z + (s.left_pad : Int)).toNat false else false
          rw [getD_append_zeros]
          exact h.tape_eq z
        idx_eq := h.idx_eq
        input_ptr_eq := h.input_ptr_eq
        step_eq := h.step_eq
        input_eq := h.input_eq
        output_eq := h.output_eq
        code_eq := h.code_eq
        map_eq := h.map_eq }
  · rename_i hlt
    rw [if_neg hlt] at hb
    exact
      { in_bounds := hb
        cursor_eq := hc
        tape_eq := h.tape_eq
        idx_eq := h.idx_eq
        input_ptr_eq := h.input_ptr_eq
        step_eq := h.step_eq
        input_eq := h.input_eq
        output_eq := h.output_eq
        code_eq := h.code_eq
        map_eq := h.map_eq }

theorem rep_left (s : State) (r : RefState) (h : Represents s r) :
    Represents (MoveLeftCmd s) { r with cursor := r.cursor - 1 } := by
  have hb := left_ptr_lt s h.in_bounds
  by_cases hz : s.ptr = 0
  · have hm : MoveLeftCmd s =
        { s with
          tape := List.replicate INITIAL_TAPE_SIZE false ++ s.tape
          ptr := s.ptr + INITIAL_TAPE_SIZE - 1
          left_pad := s.left_pad + INITIAL_TAPE_SIZE
          mem_used := (List.replicate INITIAL_TAPE_SIZE false ++ s.tape).length } := by
      unfold MoveLeftCmd
      simp only [hz, if_true]
    rw [hm] at hb ⊢
    exact
      { in_bounds := hb
        cursor_eq := by
          show r.cursor - 1 = ((s.ptr + INITIAL_TAPE_SIZE - 1 : Nat) : Int) -
            ((s.left_pad + INITIAL_TAPE_SIZE : Nat) : Int)
          rw [h.cursor_eq, hz]
          unfold INITIAL_TAPE_SIZE
          omega
        tape_eq := by
          intro z
          show r.tape z = if 0 ≤ z + ((s.left_pad + INITIAL_TAPE_SIZE : Nat) : Int) then
            (List.replicate INITIAL_TAPE_SIZE false ++ s.tape).getD
              (z + ((s.left_pad + INITIAL_TAPE_SIZE : Nat) : Int)).toNat false else false
          rw [getD_zeros_append, h.tape_eq z]
          by_cases h1 : (0 : Int) ≤ z + (s.left_pad : Int)
          · have h2 : (0 : Int) ≤ z + ((s.left_pad + INITIAL_TAPE_SIZE : Nat) : Int) := by omega
            have h3 : ¬ (z + ((s.left_pad + INITIAL_TAPE_SIZE : Nat) : Int)).toNat <
                INITIAL_TAPE_SIZE := by omega
            have h4 : (z + ((s.left_pad + INITIAL_TAPE_SIZE : Nat) : Int)).toNat -
                INITIAL_TAPE_SIZE = (z + (s.left_pad : Int)).toNat := by omega
            rw [if_pos h1, if_pos h2, if_neg h3, h4]
          · rw [if_neg h1]
            by_cases h2 : (0 : Int) ≤ z + ((s.left_pad + INITIAL_TAPE_SIZE : Nat) : Int)
            · have h3 : (z + ((s.left_pad + INITIAL_TAPE_SIZE : Nat) : Int)).toNat <
                  INITIAL_TAPE_SIZE := by omega
              rw [if_pos h2, if_pos h3]
            · rw [if_neg h2]
        idx_eq := h.idx_eq
        input_ptr_eq := h.input_ptr_eq
        step_eq := h.step_eq
        input_eq := h.input_eq
        output_eq := h.output_eq
        code_eq := h.code_eq
        map_eq := h.map_eq }
  · have hm : MoveLeftCmd s = { s with ptr := s.ptr - 1 } := by
      unfold MoveLeftCmd
      simp only [hz, if_false]
    rw [hm] at hb ⊢
    exact
      { in_bounds := hb
        cursor_eq := by
          show r.cursor - 1 = ((s.ptr - 1 : Nat) : Int) - (s.left_pad : Int)
          rw [h.cursor_eq]
          omega
        tape_eq := h.tape_eq
        idx_eq := h.idx_eq
        input_ptr_eq := h.input_ptr_eq
        step_eq := h.step_eq
        input_eq := h.input_eq
        output_eq := h.output_eq
        code_eq := h.code_eq
        map_eq := h.map_eq }

theorem rep_jump (s : State) (r : RefState) (h : Represents s r) :
    Represents
      { s with
        idx_ptr := (map_index s.loop_map s.idx_ptr).1
        loop_map := (map_index s.loop_map s.idx_ptr).2 }
      { r with
        idx_ptr := (map_index r.loop_map r.idx_ptr).1
        loop_map := (map_index r.loop_map r.idx_ptr).2 } where
  in_bounds := h.in_bounds
  cursor_eq := h.cursor_eq
  tape_eq := h.tape_eq
  idx_eq := by
    show (map_index r.loop_map r.idx_ptr).1 = (map_index s.loop_map s.idx_ptr).1
    rw [h.map_eq, h.idx_eq]
  input_ptr_eq := h.input_ptr_eq
  step_eq := h.step_eq
  input_eq := h.input_eq
  output_eq := h.output_eq
  code_eq := h.code_eq
  map_eq := by
    show (map_index r.loop_map r.idx_ptr).2 = (map_index s.loop_map s.idx_ptr).2
    rw [h.map_eq, h.idx_eq]

theorem rep_forward (s : State) (r : RefState) (h : Represents s r) :
    Represents (JumpForwardCmd s)
      (if !(r.tape r.cursor) then
        { r with
          idx_ptr := (map_index r.loop_map r.idx_ptr).1
          loop_map := (map_index r.loop_map r.idx_ptr).2 }
      else r) := by
  unfold JumpForwardCmd
  rw [rep_read s r h]
  split
  · exact rep_jump s r h
  · exact h

theorem rep_backward (s : State) (r : RefState) (h : Represents s r) :
    Represents (JumpBackwardCmd s)
      (if r.tape r.cursor then
        { r with
          idx_ptr := (map_index r.loop_map r.idx_ptr).1
          loop_map := (map_index r.loop_map r.idx_ptr).2 }
      else r) := by
  unfold JumpBackwardCmd
  rw [rep_read s r h]
  split
  · exact rep_jump s r h
  · exact h

theorem rep_dispatch (c : Char) (s : State) (r : RefState) (h : Represents s r) :
    Represents (dispatch c s) (ref_dispatch c r) := by
  by_cases h1 : c = '+'
  · subst h1; exact rep_plus s r h
  by_cases h2 : c = ','
  · subst h2; exact rep_input s r h
  by_cases h3 : c = ';'
  · subst h3; exact rep_output s r h
  by_cases h4 : c = '>'
  · subst h4; exact rep_right s r h
  by_cases h5 : c = '<'
  · subst h5; exact rep_left s r h
  by_cases h6 : c = '['
  · subst h6; exact rep_forward s r h
  by_cases h7 : c = ']'
  · subst h7; exact rep_backward s r h
  have hd : dispatch c s = s := by
    unfold dispatch command_map
    rw [if_neg h1, if_neg h2, if_neg h3, if_neg h4, if_neg h5, if_neg h6, if_neg h7]
  have hr : ref_dispatch c r = r := by
    unfold ref_dispatch
    rw [if_neg h1, if_neg h2, if_neg h3, if_neg h4, if_neg h5, if_neg h6, if_neg h7]
  rw [hd, hr]
  exact h

theorem ref_dispatch_bump (c : Char) (r : RefState) (n : Nat) :
    ref_dispatch c { r with step_count := n } = { ref_dispatch c r with step_count := n } := by
  unfold ref_dispatch
  split_ifs <;> rfl

theorem ref_step_of_getElem? (r : RefState) (c : Char) (h : r.code[r.idx_ptr]? = some c) :
    ref_step r =
      { ref_dispatch c { r with step_count := r.step_count + 1 } with
        idx_ptr := (ref_dispatch c { r with step_count := r.step_count + 1 }).idx_ptr + 1 } := by
  have hlt : r.idx_ptr < r.code.length := by
    by_contra hge
    rw [List.getElem?_eq_none (Nat.le_of_not_lt hge)] at h
    exact absurd h (by simp)
  have hc : r.code[r.idx_ptr] = c := by
    rw [List.getElem?_eq_getElem hlt] at h
    exact Option.some.inj h
  rw [ref_dispatch_bump]
  unfold ref_step
  rw [dif_pos hlt, hc]

theorem ref_step_halted (r : RefState) (h : ¬ r.idx_ptr < r.code.length) : ref_step r = r := by
  unfold ref_step
  simp only [h, dite_false]

theorem rep_count (s : State) (r : RefState) (h : Represents s r) :
    Represents { s with step_count := s.step_count + 1 }
      { r with step_count := r.step_count + 1 } where
  in_bounds := h.in_bounds
  cursor_eq := h.cursor_eq
  tape_eq := h.tape_eq
  idx_eq := h.idx_eq
  input_ptr_eq := h.input_ptr_eq
  step_eq := by
    show r.step_count + 1 = s.step_count + 1
    rw [h.step_eq]
  input_eq := h.input_eq
  output_eq := h.output_eq
  code_eq := h.code_eq
  map_eq := h.map_eq

theorem rep_advance (s : State) (r : RefState) (h : Represents s r) :
    Represents { s with idx_ptr := s.idx_ptr + 1 } { r with idx_ptr := r.idx_ptr + 1 } where
  in_bounds := h.in_bounds
  cursor_eq := h.cursor_eq
  tape_eq := h.tape_eq
  idx_eq := by
    show r.idx_ptr + 1 = s.idx_ptr + 1
    rw [h.idx_eq]
  input_ptr_eq := h.input_ptr_eq
  step_eq := h.step_eq
  input_eq := h.input_eq
  output_eq := h.output_eq
  code_eq := h.code_eq
  map_eq := h.map_eq

theorem rep_step (s : State) (r : RefState) (h : Represents s r) :
    Represents (interpret.step s) (ref_step r) := by
  by_cases hrun : s.idx_ptr < s.code.length
  · have hs : s.code[s.idx_ptr]? = some s.code[s.idx_ptr] := List.getElem?_eq_getElem hrun
    have hr : r.code[r.idx_ptr]? = some s.code[s.idx_ptr] := by
      rw [h.code_eq, h.idx_eq]; exact hs
    rw [step_of_getElem? s _ hs, ref_step_of_getElem? r _ hr]
    exact rep_advance _ _ (rep_dispatch _ _ _ (rep_count s r h))
  · have hrun2 : ¬ r.idx_ptr < r.code.length := by
      rw [h.code_eq, h.idx_eq]; exact hrun
    rw [step_halted s hrun, ref_step_halted r hrun2]
    exact h

theorem rep_iterate (s : State) (r : RefState) (h : Represents s r) (n : Nat) :
    Represents (interpret.step^[n] s) (ref_step^[n] r) := by
  induction n generalizing s r with
  | zero => exact h
  | succ n ih =>
    rw [Function.iterate_succ_apply, Function.iterate_succ_apply]
    exact ih _ _ (rep_step s r h)

theorem rep_loop (m : Nat) :
    ∀ (s : State) (r : RefState), MAX_EXECUTION_STEPS + 1 - s.step_count = m →
      Represents s r → (interpret.loop s).1 = ref_loop r := by
  induction m using Nat.strong_induction_on with
  | _ m ih =>
    intro s r hm h
    rw [ref_loop]
    by_cases hrun : s.idx_ptr < s.code.length
    · have hrun2 : r.idx_ptr < r.code.length := by
        rw [h.code_eq, h.idx_eq]; exact hrun
      rw [if_pos hrun2]
      by_cases hlim : MAX_EXECUTION_STEPS < s.step_count + 1
      · have hlim2 : r.step_count + 1 > MAX_EXECUTION_STEPS := by
          rw [h.step_eq]; exact hlim
        rw [if_pos hlim2, loop_limit s hrun hlim]
      · have hlim2 : ¬ r.step_count + 1 > MAX_EXECUTION_STEPS := by
          rw [h.step_eq]; exact hlim
        rw [if_neg hlim2, loop_step s hrun (Nat.le_of_not_lt hlim)]
        exact ih (MAX_EXECUTION_STEPS + 1 - (interpret.step s).step_count)
          (by rw [step_step_count s hrun]; omega) _ _ rfl (rep_step s r h)
    · have hrun2 : ¬ r.idx_ptr < r.code.length := by
        rw [h.code_eq, h.idx_eq]; exact hrun
      rw [if_neg hrun2, loop_halt s hrun, h.output_eq]

theorem rep_init (code : List Char) (input : List Bool) (m : List (Nat × Nat)) :
    Represents { State.init code input with loop_map := m } (RefState.init code input m) where
  in_bounds := init_ptr_lt
  cursor_eq := by
    show (0 : Int) = ((INITIAL_TAPE_SIZE / 2 : Nat) : Int) - ((INITIAL_TAPE_SIZE / 2 : Nat) : Int)
    omega
  tape_eq := by
    intro z
    show false = if 0 ≤ z + ((INITIAL_TAPE_SIZE / 2 : Nat) : Int) then
      (List.replicate INITIAL_TAPE_SIZE false).getD
        (z + ((INITIAL_TAPE_SIZE / 2 : Nat) : Int)).toNat false else false
    rw [init_tape_getD]
    split <;> rfl
  idx_eq := rfl
  input_ptr_eq := rfl
  step_eq := rfl
  input_eq := rfl
  output_eq := rfl
  code_eq := rfl
  map_eq := rfl

theorem interpret_eq_ref (code : List Char) (input : List Bool) :
    interpret code input = ref_interpret code input := by
  unfold interpret interpret.run ref_interpret
  cases hres : build_jump_map (State.init code input) with
  | error es => rfl
  | ok s =>
    obtain ⟨m, _, hm⟩ := scan_of_build_ok _ _ hres
    subst hm
    exact rep_loop _ _ _ rfl (rep_init code input m)

/-- Claim C16: for a program with balanced brackets and any input, the result of
`interpret` on the growable physical tape (the output bits or the
execution-limit error) equals the result of the reference machine whose tape is
a total function from the integers to bits, initially all 0, with the cursor
starting at 0 and moving by `+1` and `-1`; and after any number of rounds the
physical state represents the reference state: logical cell `z` is physical
cell `z + left_pad`, and cells outside the physical tape read 0. -/
theorem tape_refinement (code : List Char) (input : List Bool) (hb : balanced code = true) :
    interpret code input = ref_interpret code input ∧
      ∃ s0, build_jump_map (State.init code input) = .ok s0 ∧
        ∀ n, Represents (interpret.step^[n] s0)
          (ref_step^[n] (RefState.init code input s0.loop_map)) := by
  refine ⟨interpret_eq_ref code input, ?_⟩
  obtain ⟨s0, hs0⟩ := (build_ok_iff_balanced code input).mpr hb
  refine ⟨s0, hs0, ?_⟩
  intro n
  obtain ⟨m, _, hm⟩ := scan_of_build_ok _ _ hs0
  subst hm
  exact rep_iterate _ _ (rep_init code input m) n

/-- Witness of `tape_refinement` at the program `<+[<];`, with the input
`[true]`. -/
theorem tape_refinement_witness :
    balanced "<+[<];".toList = true ∧
      interpret "<+[<];".toList [true] = ref_interpret "<+[<];".toList [true] ∧
      ∃ s0, build_jump_map (State.init "<+[<];".toList [true]) = .ok s0 ∧
        ∀ n, Represents (interpret.step^[n] s0)
          (ref_step^[n] (RefState.init "<+[<];".toList [true] s0.loop_map)) :=
  ⟨by decide, tape_refinement "<+[<];".toList [true] (by decide)⟩

/-! ## Claim C19: characters outside the seven opcodes are inert -/

theorem opcodes_before_zero (code : List Char) : opcodes_before code 0 = 0 := by
  simp [opcodes_before]

theorem opcodes_before_succ (code : List Char) (k : Nat) (c : Char) (h : code[k]? = some c) :
    opcodes_before code (k + 1) = opcodes_before code k + if is_opcode c then 1 else 0 := by
  unfold opcodes_before
  rw [List.take_succ, h, List.filter_append, List.length_append]
  cases hc : is_opcode c <;> simp [List.filter, hc]

theorem opcodes_before_of_le (code : List Char) (k : Nat) (h : code.length ≤ k) :
    opcodes_before code k = (strip code).length := by
  unfold opcodes_before strip
  rw [List.take_of_length_le h]

theorem opcodes_before_mono_succ (code : List Char) (k : Nat) :
    opcodes_before code k ≤ opcodes_before code (k + 1) := by
  cases h : code[k]? with
  | none =>
    have hle : code.length ≤ k := by
      by_contra hlt
      rw [List.getElem?_eq_getElem (Nat.lt_of_not_le hlt)] at h
      exact absurd h (by simp)
    rw [opcodes_before_of_le code k hle, opcodes_before_of_le code (k + 1) (by omega)]
  | some c =>
    rw [opcodes_before_succ code k c h]
    omega

theorem opcodes_before_mono (code : List Char) (a b : Nat) (h : a ≤ b) :
    opcodes_before code a ≤ opcodes_before code b := by
  induction b with
  | zero =>
    have : a = 0 := by omega
    rw [this]
  | succ b ih =>
    by_cases hab : a = b + 1
    · rw [hab]
    · exact Nat.le_trans (ih (by omega)) (opcodes_before_mono_succ code b)

theorem opcodes_before_lt (code : List Char) (a b : Nat) (c : Char) (hc : code[a]? = some c)
    (hop : is_opcode c = true) (h : a < b) : opcodes_before code a < opcodes_before code b := by
  have h1 := opcodes_before_succ code a c hc
  rw [hop] at h1
  have h2 := opcodes_before_mono code (a + 1) b h
  simp only [if_true] at h1
  omega

theorem opcodes_before_inj (code : List Char) (a b : Nat) (ca cb : Char)
    (ha : code[a]? = some ca) (hb : code[b]? = some cb) (hopa : is_opcode ca = true)
    (hopb : is_opcode cb = true) (h : opcodes_before code a = opcodes_before code b) : a = b := by
  rcases Nat.lt_trichotomy a b with hlt | heq | hgt
  · have := opcodes_before_lt code a b ca ha hopa hlt
    omega
  · exact heq
  · have := opcodes_before_lt code b a cb hb hopb hgt
    omega

theorem strip_getElem? (code : List Char) (k : Nat) (c : Char) (hc : code[k]? = some c)
    (hop : is_opcode c = true) : (strip code)[opcodes_before code k]? = some c := by
  have hlt : k < code.length := by
    by_contra hge
    rw [List.getElem?_eq_none (Nat.le_of_not_lt hge)] at hc
    exact absurd hc (by simp)
  have hck : code[k] = c := by
    rw [List.getElem?_eq_getElem hlt] at hc
    exact Option.some.inj hc
  have hsplit : code = code.take k ++ c :: code.drop (k + 1) := by
    rw [← hck, ← List.drop_eq_getElem_cons hlt, List.take_append_drop]
  have hstrip : strip code =
      (code.take k).filter is_opcode ++ c :: (code.drop (k + 1)).filter is_opcode := by
    unfold strip
    conv_lhs => rw [hsplit]
    rw [List.filter_append, List.filter_cons_of_pos hop]
  rw [hstrip]
  unfold opcodes_before
  rw [List.getElem?_append_right (Nat.le_refl _), Nat.sub_self, List.getElem?_cons_zero]

theorem is_opcode_of_bracket (code : List Char) (k : Nat)
    (h : code[k]? = some '[' ∨ code[k]? = some ']') :
    ∃ c, code[k]? = some c ∧ is_opcode c = true := by
  rcases h with h | h
  · exact ⟨_, h, rfl⟩
  · exact ⟨_, h, rfl⟩

theorem scan_strip (code : List Char) (cs : List Char) :
    ∀ (i : Nat) (st : List Nat) (m : List (Nat × Nat)) (st2 : List Nat) (m2 : List (Nat × Nat)),
      code.drop i = cs → build_jump_map.scan cs i st m = .ok (st2, m2) →
      build_jump_map.scan (cs.filter is_opcode) (opcodes_before code i)
          (st.map (opcodes_before code)) (shift_map code m) =
        .ok (st2.map (opcodes_before code), shift_map code m2) := by
  induction cs with
  | nil =>
    intro i st m st2 m2 _ h
    simp only [build_jump_map.scan, Except.ok.injEq, Prod.mk.injEq] at h
    obtain ⟨rfl, rfl⟩ := h
    rfl
  | cons c cs ih =>
    intro i st m st2 m2 hdrop h
    obtain ⟨hci, hdrop2⟩ := getElem?_of_drop code i c cs hdrop
    have hsucc := opcodes_before_succ code i c hci
    rw [scan_cons] at h
    by_cases h1 : c = '['
    · subst h1
      rw [if_pos rfl] at h
      have hop : is_opcode '[' = true := rfl
      rw [hop, if_pos rfl] at hsucc
      rw [List.filter_cons_of_pos hop, scan_cons, if_pos rfl, ← hsucc]
      exact ih _ _ _ _ _ hdrop2 h
    · rw [if_neg h1] at h
      by_cases h2 : c = ']'
      · subst h2
        rw [if_pos rfl] at h
        have hop : is_opcode ']' = true := rfl
        rw [hop, if_pos rfl] at hsucc
        rw [List.filter_cons_of_pos hop, scan_cons, if_neg (by decide), if_pos rfl, ← hsucc]
        cases st with
        | nil => exact absurd h (by simp)
        | cons start rest => exact ih _ _ _ _ _ hdrop2 h
      · rw [if_neg h2] at h
        cases hop : is_opcode c with
        | true =>
          rw [hop, if_pos rfl] at hsucc
          rw [List.filter_cons_of_pos hop, scan_cons, if_neg h1, if_neg h2, ← hsucc]
          exact ih _ _ _ _ _ hdrop2 h
        | false =>
          rw [hop] at hsucc
          simp only [Bool.false_eq_true, if_false, Nat.add_zero] at hsucc
          rw [List.filter_cons_of_neg (by simp [hop]), ← hsucc]
          exact ih _ _ _ _ _ hdrop2 h

theorem scan_keys (code : List Char) (cs : List Char) :
    ∀ (i : Nat) (st : List Nat) (m : List (Nat × Nat)) (st2 : List Nat) (m2 : List (Nat × Nat)),
      code.drop i = cs → (∀ p ∈ st, code[p]? = some '[') →
      (∀ p ∈ m, code[p.1]? = some '[' ∨ code[p.1]? = some ']') →
      build_jump_map.scan cs i st m = .ok (st2, m2) →
      ∀ p ∈ m2, code[p.1]? = some '[' ∨ code[p.1]? = some ']' := by
  induction cs with
  | nil =>
    intro i st m st2 m2 _ _ hm h
    simp only [build_jump_map.scan, Except.ok.injEq, Prod.mk.injEq] at h
    obtain ⟨_, rfl⟩ := h
    exact hm
  | cons c cs ih =>
    intro i st m st2 m2 hdrop hst hm h
    obtain ⟨hci, hdrop2⟩ := getElem?_of_drop code i c cs hdrop
    rw [scan_cons] at h
    by_cases h1 : c = '['
    · rw [if_pos h1] at h
      refine ih _ _ _ _ _ hdrop2 ?_ hm h
      intro p hp
      rcases List.mem_cons.mp hp with rfl | hp
      · rw [hci, h1]
      · exact hst p hp
    · rw [if_neg h1] at h
      by_cases h2 : c = ']'
      · rw [if_pos h2] at h
        cases st with
        | nil => exact absurd h (by simp)
        | cons start rest =>
          refine ih _ _ _ _ _ hdrop2 (fun p hp => hst p (List.mem_cons_of_mem _ hp)) ?_ h
          intro p hp
          unfold map_assign at hp
          rcases List.mem_cons.mp hp with rfl | hp
          · exact Or.inr (by rw [hci, h2])
          · rcases List.mem_cons.mp hp with rfl | hp
            · exact Or.inl (hst _ (List.mem_cons_self _ _))
            · exact hm p hp
      · rw [if_neg h2] at h
        exact ih _ _ _ _ _ hdrop2 hst hm h

theorem lookup_shift (code : List Char) (m : List (Nat × Nat)) (k : Nat)
    (hm : ∀ p ∈ m, code[p.1]? = some '[' ∨ code[p.1]? = some ']')
    (hk : code[k]? = some '[' ∨ code[k]? = some ']') :
    (shift_map code m).lookup (opcodes_before code k) =
      (m.lookup k).map (opcodes_before code) := by
  induction m with
  | nil => rfl
  | cons p rest ih =>
    obtain ⟨a, b⟩ := p
    have hrest : ∀ q ∈ rest, code[q.1]? = some '[' ∨ code[q.1]? = some ']' :=
      fun q hq => hm q (List.mem_cons_of_mem _ hq)
    have ha := hm (a, b) (List.mem_cons_self _ _)
    show List.lookup (opcodes_before code k)
      ((opcodes_before code a, opcodes_before code b) :: shift_map code rest) = _
    rw [List.lookup_cons, List.lookup_cons]
    by_cases hka : k = a
    · subst hka
      simp
    · obtain ⟨ck, hck, hopk⟩ := is_opcode_of_bracket code k hk
      obtain ⟨ca, hca, hopa⟩ := is_opcode_of_bracket code a ha
      have hne : opcodes_before code k ≠ opcodes_before code a :=
        fun e => hka (opcodes_before_inj code k a ck ca hck hca hopk hopa e)
      have hb1 : (opcodes_before code k == opcodes_before code a) = false := by simpa using hne
      have hb2 : (k == a) = false := by simpa using hka
      rw [hb1, hb2]
      exact ih hrest

theorem dispatch_retarget (c : Char)
    (hc : c = '+' ∨ c = ',' ∨ c = ';' ∨ c = '>' ∨ c = '<') (s : State) (a : Nat)
    (b : List Char) (d : List (Nat × Nat)) (e : Nat) :
    dispatch c { s with idx_ptr := a, code := b, loop_map := d, step_count := e } =
      { dispatch c s with idx_ptr := a, code := b, loop_map := d, step_count := e } := by
  rcases hc with rfl | rfl | rfl | rfl | rfl
  · rfl
  · show InputCmd _ = { InputCmd s with idx_ptr := a, code := b, loop_map := d, step_count := e }
    unfold InputCmd
    by_cases h : s.input_ptr < s.input_bits.length
    · simp only [h, if_true]
    · simp only [h, if_false]
  · rfl
  · show MoveRightCmd _ =
      { MoveRightCmd s with idx_ptr := a, code := b, loop_map := d, step_count := e }
    unfold MoveRightCmd
    by_cases h : s.ptr + 1 ≥ s.tape.length
    · simp only [h, if_true]
    · simp only [h, if_false]
  · show MoveLeftCmd _ =
      { MoveLeftCmd s with idx_ptr := a, code := b, loop_map := d, step_count := e }
    unfold MoveLeftCmd
    by_cases h : s.ptr = 0
    · simp only [h, if_true]
    · simp only [h, if_false]

theorem dispatch_plain (c : Char)
    (hc : c = '+' ∨ c = ',' ∨ c = ';' ∨ c = '>' ∨ c = '<') (s : State) :
    (dispatch c s).idx_ptr = s.idx_ptr ∧ (dispatch c s).loop_map = s.loop_map := by
  rcases hc with rfl | rfl | rfl | rfl | rfl
  · exact ⟨rfl, rfl⟩
  · show (InputCmd s).idx_ptr = _ ∧ (InputCmd s).loop_map = _
    unfold InputCmd
    split <;> exact ⟨rfl, rfl⟩
  · exact ⟨rfl, rfl⟩
  · show (MoveRightCmd s).idx_ptr = _ ∧ (MoveRightCmd s).loop_map = _
    unfold MoveRightCmd
    simp only
    split <;> exact ⟨rfl, rfl⟩
  · show (MoveLeftCmd s).idx_ptr = _ ∧ (MoveLeftCmd s).loop_map = _
    unfold MoveLeftCmd
    simp only
    split <;> exact ⟨rfl, rfl⟩

theorem opcode_cases (c : Char) (h : is_opcode c = true) :
    (c = '+' ∨ c = ',' ∨ c = ';' ∨ c = '>' ∨ c = '<') ∨ c = '[' ∨ c = ']' := by
  unfold is_opcode command_map at h
  by_cases h1 : c = '+'
  · exact Or.inl (Or.inl h1)
  by_cases h2 : c = ','
  · exact Or.inl (Or.inr (Or.inl h2))
  by_cases h3 : c = ';'
  · exact Or.inl (Or.inr (Or.inr (Or.inl h3)))
  by_cases h4 : c = '>'
  · exact Or.inl (Or.inr (Or.inr (Or.inr (Or.inl h4))))
  by_cases h5 : c = '<'
  · exact Or.inl (Or.inr (Or.inr (Or.inr (Or.inr h5))))
  by_cases h6 : c = '['
  · exact Or.inr (Or.inl h6)
  by_cases h7 : c = ']'
  · exact Or.inr (Or.inr h7)
  rw [if_neg h1, if_neg h2, if_neg h3, if_neg h4, if_neg h5, if_neg h6, if_neg h7] at h
  exact absurd h (by simp)

theorem command_map_of_not_opcode (c : Char) (h : is_opcode c = false) :
    command_map c = none := by
  unfold is_opcode at h
  cases hc : command_map c with
  | none => rfl
  | some f => rw [hc] at h; exact absurd h (by simp)

theorem step_retarget_plain (code : List Char) (s : State) (k : Nat) (c : Char)
    (hcode : s.code = code) (hc : code[s.idx_ptr]? = some c)
    (hp : c = '+' ∨ c = ',' ∨ c = ';' ∨ c = '>' ∨ c = '<') :
    interpret.step (retarget code s k) = retarget code (interpret.step s) (k + 1) ∧
      (interpret.step s).loop_map = s.loop_map := by
  have hop : is_opcode c = true := by
    rcases hp with rfl | rfl | rfl | rfl | rfl <;> rfl
  have hs : s.code[s.idx_ptr]? = some c := by rw [hcode]; exact hc
  have hr : (retarget code s k).code[(retarget code s k).idx_ptr]? = some c :=
    strip_getElem? code s.idx_ptr c hc hop
  have hsucc := opcodes_before_succ code s.idx_ptr c hc
  rw [hop, if_pos rfl] at hsucc
  obtain ⟨hidx, hmap⟩ := dispatch_plain c hp { s with step_count := s.step_count + 1 }
  rw [step_of_getElem? _ c hr, step_of_getElem? s c hs]
  constructor
  · have hd := dispatch_retarget c hp { s with step_count := s.step_count + 1 }
      (opcodes_before code s.idx_ptr) (strip code) (shift_map code s.loop_map) (k + 1)
    show ({ dispatch c { s with
          idx_ptr := opcodes_before code s.idx_ptr
          code := strip code
          loop_map := shift_map code s.loop_map
          step_count := k + 1 } with
        idx_ptr := (dispatch c { s with
          idx_ptr := opcodes_before code s.idx_ptr
          code := strip code
          loop_map := shift_map code s.loop_map
          step_count := k + 1 }).idx_ptr + 1 } : State) =
      { dispatch c { s with step_count := s.step_count + 1 } with
        idx_ptr := opcodes_before code
          ((dispatch c { s with step_count := s.step_count + 1 }).idx_ptr + 1)
        code := strip code
        loop_map := shift_map code (dispatch c { s with step_count := s.step_count + 1 }).loop_map
        step_count := k + 1 }
    rw [hidx, hmap]
    show _ = ({ dispatch c { s with step_count := s.step_count + 1 } with
        idx_ptr := opcodes_before code (s.idx_ptr + 1)
        code := strip code
        loop_map := shift_map code s.loop_map
        step_count := k + 1 } : State)
    rw [hsucc]
    have hd2 : dispatch c { s with
          idx_ptr := opcodes_before code s.idx_ptr
          code := strip code
          loop_map := shift_map code s.loop_map
          step_count := k + 1 } =
        { dispatch c { s with step_count := s.step_count + 1 } with
          idx_ptr := opcodes_before code s.idx_ptr
          code := strip code
          loop_map := shift_map code s.loop_map
          step_count := k + 1 } := hd
    rw [hd2]
  · exact hmap

theorem step_retarget_jump (code : List Char) (s : State) (k : Nat) (c : Char)
    (hcode : s.code = code) (hc : code[s.idx_ptr]? = some c) (hj : c = '[' ∨ c = ']')
    (j : Nat) (hl : s.loop_map.lookup s.idx_ptr = some j)
    (hl2 : (shift_map code s.loop_map).lookup (opcodes_before code s.idx_ptr) =
      some (opcodes_before code j))
    (hjb : code[j]? = some '[' ∨ code[j]? = some ']') :
    interpret.step (retarget code s k) = retarget code (interpret.step s) (k + 1) ∧
      (interpret.step s).loop_map = s.loop_map := by
  have hop : is_opcode c = true := by
    rcases hj with rfl | rfl <;> rfl
  have hs : s.code[s.idx_ptr]? = some c := by rw [hcode]; exact hc
  have hr : (retarget code s k).code[(retarget code s k).idx_ptr]? = some c :=
    strip_getElem? code s.idx_ptr c hc hop
  have hsucc := opcodes_before_succ code s.idx_ptr c hc
  rw [hop, if_pos rfl] at hsucc
  obtain ⟨cj, hcj, hopj⟩ := is_opcode_of_bracket code j hjb
  have hsuccj := opcodes_before_succ code j cj hcj
  rw [hopj, if_pos rfl] at hsuccj
  have hstay : ({ retarget code s k with
        step_count := (retarget code s k).step_count + 1
        idx_ptr := (retarget code s k).idx_ptr + 1 } : State) =
      retarget code { s with step_count := s.step_count + 1, idx_ptr := s.idx_ptr + 1 }
        (k + 1) := by
    show ({ s with
        idx_ptr := opcodes_before code s.idx_ptr + 1
        code := strip code
        loop_map := shift_map code s.loop_map
        step_count := k + 1 } : State) =
      { s with
        idx_ptr := opcodes_before code (s.idx_ptr + 1)
        code := strip code
        loop_map := shift_map code s.loop_map
        step_count := k + 1 }
    rw [hsucc]
  have hgo : ({ retarget code s k with
        step_count := (retarget code s k).step_count + 1
        idx_ptr := opcodes_before code j + 1 } : State) =
      retarget code { s with step_count := s.step_count + 1, idx_ptr := j + 1 } (k + 1) := by
    show ({ s with
        idx_ptr := opcodes_before code j + 1
        code := strip code
        loop_map := shift_map code s.loop_map
        step_count := k + 1 } : State) =
      { s with
        idx_ptr := opcodes_before code (j + 1)
        code := strip code
        loop_map := shift_map code s.loop_map
        step_count := k + 1 }
    rw [hsuccj]
  have hbit : (retarget code s k).tape.getD (retarget code s k).ptr false =
      s.tape.getD s.ptr false := rfl
  rcases hj with rfl | rfl
  · cases hb : s.tape.getD s.ptr false with
    | true =>
      rw [step_open_true s hs hb, step_open_true _ hr (hbit.trans hb)]
      exact ⟨hstay, rfl⟩
    | false =>
      rw [step_open_false s j hs hb hl, step_open_false _ _ hr (hbit.trans hb) hl2]
      exact ⟨hgo, rfl⟩
  · cases hb : s.tape.getD s.ptr false with
    | true =>
      rw [step_close_true s j hs hb hl, step_close_true _ _ hr (hbit.trans hb) hl2]
      exact ⟨hgo, rfl⟩
    | false =>
      rw [step_close_false s hs hb, step_close_false _ hr (hbit.trans hb)]
      exact ⟨hstay, rfl⟩

theorem step_retarget_inert (code : List Char) (s : State) (k : Nat) (c : Char)
    (hcode : s.code = code) (hc : code[s.idx_ptr]? = some c) (hop : is_opcode c = false) :
    retarget code (interpret.step s) k = retarget code s k ∧
      (interpret.step s).loop_map = s.loop_map := by
  have hs : s.code[s.idx_ptr]? = some c := by rw [hcode]; exact hc
  have hsucc := opcodes_before_succ code s.idx_ptr c hc
  rw [hop] at hsucc
  simp only [Bool.false_eq_true, if_false, Nat.add_zero] at hsucc
  rw [step_other s c hs (command_map_of_not_opcode c hop)]
  refine ⟨?_, rfl⟩
  show ({ s with
      idx_ptr := opcodes_before code (s.idx_ptr + 1)
      code := strip code
      loop_map := shift_map code s.loop_map
      step_count := k } : State) = retarget code s k
  rw [hsucc]
  rfl

theorem retarget_iterate (code : List Char) (m : List (Nat × Nat))
    (hjump : ∀ i, (code[i]? = some '[' ∨ code[i]? = some ']') →
      ∃ j, m.lookup i = some j ∧
        (shift_map code m).lookup (opcodes_before code i) = some (opcodes_before code j) ∧
        (code[j]? = some '[' ∨ code[j]? = some ']'))
    (n : Nat) :
    ∀ (s : State) (k : Nat), s.code = code → s.loop_map = m →
      ∃ n2, n2 ≤ n ∧
        interpret.step^[n2] (retarget code s k) =
          retarget code (interpret.step^[n] s) (k + n2) := by
  induction n with
  | zero =>
    intro s k _ _
    exact ⟨0, Nat.le_refl 0, rfl⟩
  | succ n ih =>
    intro s k hcode hmap
    by_cases hrun : s.idx_ptr < s.code.length
    · have hc : code[s.idx_ptr]? = some s.code[s.idx_ptr] := by
        rw [← hcode]; exact List.getElem?_eq_getElem hrun
      have hcode2 : (interpret.step s).code = code := by rw [step_code, hcode]
      cases hop : is_opcode s.code[s.idx_ptr] with
      | false =>
        obtain ⟨hret, hmap2⟩ := step_retarget_inert code s k _ hcode hc hop
        obtain ⟨n2, hn2, h⟩ := ih (interpret.step s) k hcode2 (by rw [hmap2, hmap])
        rw [hret] at h
        exact ⟨n2, by omega, by rw [Function.iterate_succ_apply]; exact h⟩
      | true =>
        have hboth : interpret.step (retarget code s k) =
            retarget code (interpret.step s) (k + 1) ∧
            (interpret.step s).loop_map = s.loop_map := by
          rcases opcode_cases _ hop with hp | hj
          · exact step_retarget_plain code s k _ hcode hc hp
          · have hbr : code[s.idx_ptr]? = some '[' ∨ code[s.idx_ptr]? = some ']' := by
              rcases hj with hj | hj
              · exact Or.inl (by rw [hc, hj])
              · exact Or.inr (by rw [hc, hj])
            obtain ⟨j, hl, hl2, hjb⟩ := hjump s.idx_ptr hbr
            exact step_retarget_jump code s k _ hcode hc hj j (by rw [hmap]; exact hl)
              (by rw [hmap]; exact hl2) hjb
        obtain ⟨hst, hmap2⟩ := hboth
        obtain ⟨n2, hn2, h⟩ := ih (interpret.step s) (k + 1) hcode2 (by rw [hmap2, hmap])
        refine ⟨n2 + 1, by omega, ?_⟩
        rw [Function.iterate_succ_apply, Function.iterate_succ_apply, hst, h,
          show k + 1 + n2 = k + (n2 + 1) by omega]
    · obtain ⟨n2, hn2, h⟩ := ih s k hcode hmap
      refine ⟨n2, by omega, ?_⟩
      rw [Function.iterate_succ_apply, step_halted s hrun]
      exact h

theorem returned_state (code : List Char) (input : List Bool) (s0 : State) (o : List Bool)
    (hs0 : build_jump_map (State.init code input) = .ok s0)
    (h : interpret code input = .returned o) :
    ∃ sN, interpret.step^[MAX_EXECUTION_STEPS] s0 = sN ∧ ¬ sN.idx_ptr < sN.code.length ∧
      sN.output_bits = o ∧ sN.code = s0.code := by
  obtain ⟨m, _, hm⟩ := scan_of_build_ok _ _ hs0
  have hsc : s0.step_count = 0 := by rw [hm]; rfl
  have hhalt : ¬ (interpret.step^[MAX_EXECUTION_STEPS] s0).idx_ptr <
      (interpret.step^[MAX_EXECUTION_STEPS] s0).code.length := by
    intro hrun
    have := loop_throws MAX_EXECUTION_STEPS s0 (by omega) hrun
    rw [interpret, interpret_of_build_ok code input _ hs0, this] at h
    exact absurd h (by simp)
  have hret := loop_returns MAX_EXECUTION_STEPS s0 (by omega) hhalt
  rw [interpret, interpret_of_build_ok code input _ hs0, hret] at h
  exact ⟨_, rfl, hhalt, Outcome.returned.inj h, iterate_code s0 _⟩

theorem retarget_halted (code : List Char) (s : State) (k : Nat) (hcode : s.code = code)
    (hh : ¬ s.idx_ptr < s.code.length) :
    ¬ (retarget code s k).idx_ptr < (retarget code s k).code.length := by
  show ¬ opcodes_before code s.idx_ptr < (strip code).length
  rw [hcode] at hh
  rw [opcodes_before_of_le code _ (Nat.le_of_not_lt hh)]
  exact Nat.lt_irrefl _

theorem strip_returns (code : List Char) (input : List Bool) (o : List Bool)
    (hb : balanced code = true) (h : interpret code input = .returned o) :
    interpret (strip code) input = .returned o := by
  obtain ⟨s0, hs0⟩ := (build_ok_iff_balanced code input).mpr hb
  have inv := build_inv code input s0 hs0
  obtain ⟨sN, hsN, hhalt, hout, hcodeN⟩ := returned_state code input s0 o hs0 h
  obtain ⟨m, hscan, hm⟩ := scan_of_build_ok _ _ hs0
  have hscan0 : build_jump_map.scan code 0 [] [] = .ok ([], m) := hscan
  have hmap0 : s0.loop_map = m := by rw [hm]
  have hcode0 : s0.code = code := by rw [hm]; rfl
  rw [hmap0] at inv
  have hkeys := scan_keys code code 0 [] [] [] m rfl (by simp) (by simp) hscan0
  have hjump : ∀ i, (code[i]? = some '[' ∨ code[i]? = some ']') →
      ∃ j, m.lookup i = some j ∧
        (shift_map code m).lookup (opcodes_before code i) = some (opcodes_before code j) ∧
        (code[j]? = some '[' ∨ code[j]? = some ']') := by
    intro i hi
    have hkey := (inv.keys i).mpr ⟨lt_length_of_getElem? code i hi, hi, by simp⟩
    obtain ⟨j, hj⟩ := Option.isSome_iff_exists.mp hkey
    refine ⟨j, hj, ?_, ?_⟩
    · rw [lookup_shift code m i hkeys hi, hj]
      rfl
    · rcases (inv.pair i j hj).2 with ⟨_, h2, _⟩ | ⟨_, h2, _⟩
      · exact Or.inr h2
      · exact Or.inl h2
  have hstrip := scan_strip code code 0 [] [] [] m rfl hscan0
  rw [opcodes_before_zero] at hstrip
  have hb2 : build_jump_map (State.init (strip code) input) =
      .ok { State.init (strip code) input with loop_map := shift_map code m } :=
    build_ok_of_scan (State.init (strip code) input) (shift_map code m) hstrip
  have hinit : retarget code s0 0 =
      { State.init (strip code) input with loop_map := shift_map code m } := by
    rw [hm]
    show ({ State.init code input with
        idx_ptr := opcodes_before code 0
        code := strip code
        loop_map := shift_map code m
        step_count := 0 } : State) = _
    rw [opcodes_before_zero]
    rfl
  obtain ⟨n2, hn2, hit⟩ := retarget_iterate code m hjump MAX_EXECUTION_STEPS s0 0 hcode0 hmap0
  rw [hinit, hsN] at hit
  have hhalt2 := retarget_halted code sN (0 + n2) (hcodeN.trans hcode0) hhalt
  rw [interpret, run_returns _ _ _ _ n2 hb2 hn2 hit hhalt2, ← hout]
  rfl

theorem is_opcode_eq_mem (c : Char) :
    is_opcode c = decide (c ∈ ['+', ',', ';', '>', '<', '[', ']']) := by
  cases h : is_opcode c with
  | true =>
    symm
    rw [decide_eq_true_eq]
    rcases opcode_cases c h with (h1 | h1 | h1 | h1 | h1) | h1 | h1 <;> simp [h1]
  | false =>
    symm
    rw [decide_eq_false_iff_not]
    intro hmem
    simp only [List.mem_cons, List.mem_singleton, List.not_mem_nil, or_false] at hmem
    rcases hmem with h1 | h1 | h1 | h1 | h1 | h1 | h1 <;>
      · rw [h1] at h
        exact absurd h (by decide)

theorem flip_skip_output_steps (s : State) (hcode : s.code = "+ ;".toList) (hidx : s.idx_ptr = 0)
    (hptr : s.ptr < s.tape.length) (hbit : s.tape.getD s.ptr false = false)
    (hout : s.output_bits = []) :
    interpret.step^[3] s =
      { s with
        tape := s.tape.set s.ptr true
        output_bits := [true]
        step_count := s.step_count + 3
        idx_ptr := 3 } := by
  have e1 : interpret.step s =
      { s with tape := s.tape.set s.ptr true, step_count := s.step_count + 1, idx_ptr := 1 } := by
    rw [step_plus s (by rw [hcode, hidx]; rfl), hbit, hidx]
    rfl
  have e2 : interpret.step { s with
        tape := s.tape.set s.ptr true, step_count := s.step_count + 1, idx_ptr := 1 } =
      { s with tape := s.tape.set s.ptr true, step_count := s.step_count + 2, idx_ptr := 2 } := by
    rw [step_other _ ' ' (by show s.code[1]? = _; rw [hcode]; rfl) rfl]
  have e3 : interpret.step { s with
        tape := s.tape.set s.ptr true, step_count := s.step_count + 2, idx_ptr := 2 } =
      { s with
        tape := s.tape.set s.ptr true
        output_bits := [true]
        step_count := s.step_count + 3
        idx_ptr := 3 } := by
    rw [step_output _ (by show s.code[2]? = _; rw [hcode]; rfl)]
    show ({ s with
      tape := s.tape.set s.ptr true
      output_bits := s.output_bits ++ [(s.tape.set s.ptr true).getD s.ptr false]
      step_count := s.step_count + 2 + 1
      idx_ptr := 2 + 1 } : State) = _
    rw [getD_set_self _ _ _ hptr, hout]
    rfl
  rw [Function.iterate_succ_apply, Function.iterate_succ_apply, Function.iterate_succ_apply,
    Function.iterate_zero_apply, e1, e2, e3]

theorem flip_skip_output : interpret "+ ;".toList [] = .returned [true] := by
  have hb : build_jump_map (State.init "+ ;".toList []) =
      .ok { State.init "+ ;".toList [] with loop_map := [] } := rfl
  have hit := flip_skip_output_steps { State.init "+ ;".toList [] with loop_map := [] } rfl rfl
    init_ptr_lt (init_tape_getD _) rfl
  rw [interpret, run_returns _ _ _ _ 3 hb (by decide) hit (Nat.lt_irrefl 3)]

/-- Claim C19: characters outside the seven opcodes `+ , ; > < [ ]` are inert:
for a program with balanced brackets and any input, if the run returns the
output `o`, then the run of the program with every other character removed
also returns `o`. -/
theorem inert_characters (code : List Char) (input : List Bool) (o : List Bool)
    (hb : balanced code = true) (h : interpret code input = .returned o) :
    interpret (code.filter (fun c => decide (c ∈ ['+', ',', ';', '>', '<', '[', ']']))) input =
      .returned o := by
  have hf : (fun c => decide (c ∈ ['+', ',', ';', '>', '<', '[', ']'])) = is_opcode :=
    funext (fun c => (is_opcode_eq_mem c).symm)
  rw [hf]
  exact strip_returns code input o hb h

/-- Witness of `inert_characters` at the program `+ ;`, whose blank is removed. -/
theorem inert_characters_witness :
    balanced "+ ;".toList = true ∧ interpret "+ ;".toList [] = .returned [true] ∧
      interpret ("+ ;".toList.filter
        (fun c => decide (c ∈ ['+', ',', ';', '>', '<', '[', ']']))) [] = .returned [true] :=
  ⟨by decide, flip_skip_output,
    inert_characters "+ ;".toList [] [true] (by decide) flip_skip_output⟩

end BitInterp
